import Mathlib

/-!
Verification development for the xmlearn repository (`xmlearn/__init__.py`,
class `LXML_Dumper`).

The class walks an lxml element tree and prints an indented, word-wrapped
outline of it, driven by a per-tag ruleset; it also builds a directed graph
of parent-tag to child-tag relationships.  This file gives a shallow
embedding of that code:

* the element tree is modelled by `Node` (tag, optional text, the unique
  path that `getroottree().getpath(element)` would return, and the ordered
  children); the dumper never mutates elements, so nodes are pure data;
* the Python 2.7 standard-library collaborators `textwrap.wrap` and
  `textwrap.dedent`, which the source calls with the options
  `initial_indent` / `subsequent_indent` / `width` and otherwise default
  settings (`expand_tabs`, `replace_whitespace`, `drop_whitespace`,
  `break_long_words`), are modelled by `pyWrap` and `pyDedent`;
* the methods `relwrap`, `format_element`, `dump`, `iter_unique_child_tags`,
  `iter_tag_list` and `build_tag_graph` are translated one by one;
* the `print` statements of `dump` are modelled by collecting, per visited
  element, the printed string together with the element and its depth; the
  error paths (`KeyError` on an unknown ruleset name, the two failing
  `assert` statements) are modelled by `Except` with the spec's
  `ConfigurationError` as the error type.
-/

/-! ### Python 2.7 `textwrap.wrap`

`TextWrapper.wrap` first munges whitespace (`str.expandtabs`, then each of
the six ASCII whitespace characters becomes a space), then splits the text
into chunks (alternating runs of spaces and of non-spaces; the additional
intra-word splitting at hyphens done by `wordsep_re` is not modelled — no
text in this development contains a hyphen, and the indentation and width
facts proved below do not depend on where non-space runs are subdivided),
then greedily fills lines (`_wrap_chunks` with `drop_whitespace` and
`break_long_words`).  The line-filling loop is written with explicit fuel;
one unit of fuel is one iteration of the Python `while chunks` loop, and
`chunkMeasure chunks + 1` units are enough for every input on which the
Python loop terminates (each Python iteration strictly shrinks the measure,
and a non-shrinking iteration repeats its state forever, i.e. Python 2.7
itself loops forever on such inputs — they need a width not larger than an
indent). -/

def pyIsSpaceChar (c : Char) : Bool :=
  (c = ' ') || (c = '\t') || (c = '\n') || (c = '\x0b') || (c = '\x0c') || (c = '\r')

/-- Python 2 `str.expandtabs()` with the default tab size 8: a tab becomes
spaces up to the next multiple of 8, and the column counter resets after a
newline or carriage return. -/
def expandTabsAux : List Char → Nat → List Char
  | [], _ => []
  | c :: cs, col =>
    if c = '\t' then
      List.replicate (8 - col % 8) ' ' ++ expandTabsAux cs (col + (8 - col % 8))
    else if c = '\n' ∨ c = '\r' then c :: expandTabsAux cs 0
    else c :: expandTabsAux cs (col + 1)

/-- `TextWrapper._munge_whitespace`: expand tabs, then replace each ASCII
whitespace character by a space. -/
def munge (s : List Char) : List Char :=
  (expandTabsAux s 0).map (fun c => if pyIsSpaceChar c then ' ' else c)

/-- Splits a munged text into maximal runs of spaces and of non-spaces,
the chunk list that `TextWrapper._split` produces (minus the hyphen rules,
see above).  `cls` is whether the run being accumulated is a space run and
`acc` holds that run reversed. -/
def splitRunsAux : List Char → Bool → List Char → List (List Char)
  | [], _, acc => [acc.reverse]
  | c :: cs, cls, acc =>
    if (c == ' ') == cls then splitRunsAux cs cls (c :: acc)
    else acc.reverse :: splitRunsAux cs (c == ' ') [c]

def splitRuns : List Char → List (List Char)
  | [] => []
  | c :: cs => splitRunsAux cs (c == ' ') [c]

/-- A chunk counting as whitespace for `drop_whitespace`
(Python tests `chunk.strip() == ''`, which the empty chunk also passes). -/
def isWS (c : List Char) : Bool := c.all (fun x => x == ' ')

/-- The inner greedy loop of `_wrap_chunks`: pop chunks onto the current
line while the accumulated length stays within `avail`.  Returns the chunks
taken, the accumulated length, and the remaining chunks. -/
def takeFit (avail : Int) : Nat → List (List Char) → (List (List Char) × Nat × List (List Char))
  | curLen, [] => ([], curLen, [])
  | curLen, c :: cs =>
    if ((curLen : Int) + c.length ≤ avail) then
      let r := takeFit avail (curLen + c.length) cs
      (c :: r.1, r.2.1, r.2.2)
    else ([], curLen, c :: cs)

/-- `TextWrapper._handle_long_word` (with `break_long_words = True`),
applied as `_wrap_chunks` does: only when a chunk remains and it is longer
than `avail`. -/
def handleLong (avail : Int) (curLen : Nat) (cur : List (List Char)) (rest : List (List Char)) :
    List (List Char) × List (List Char) :=
  match rest with
  | [] => (cur, [])
  | c :: cs =>
    if avail < (c.length : Int) then
      let spaceLeft : Nat := if avail < 1 then 1 else (avail - (curLen : Int)).toNat
      (cur ++ [c.take spaceLeft], c.drop spaceLeft :: cs)
    else (cur, c :: cs)

/-- The single `del cur_line[-1]` performed when the last piece of the
current line is whitespace. -/
def dropTrailingWS (cur : List (List Char)) : List (List Char) :=
  match cur.getLast? with
  | some c => if isWS c then cur.dropLast else cur
  | Option.none => cur

/-- The current-line construction of one `_wrap_chunks` iteration: the
greedy fill, the long-word handling and the trailing whitespace drop,
returning the final `cur_line` pieces and the remaining chunks. -/
def wrapBuild (avail : Int) (chunks1 : List (List Char)) :
    List (List Char) × List (List Char) :=
  let t := takeFit avail 0 chunks1
  let h := handleLong avail t.2.1 t.1 t.2.2
  (dropTrailingWS h.1, h.2)

/-- The final `if cur_line:` emission of an iteration. -/
def wrapEmit (indent : List Char) (p : List (List Char) × List (List Char)) :
    Option (List Char) × List (List Char) :=
  (if p.1.isEmpty then Option.none else some (indent ++ p.1.flatten), p.2)

/-- The line-building part of one `_wrap_chunks` iteration, after the
optional leading-whitespace drop. -/
def wrapFill (W : Nat) (indent : List Char) (chunks1 : List (List Char)) :
    Option (List Char) × List (List Char) :=
  wrapEmit indent (wrapBuild ((W : Int) - (indent.length : Int)) chunks1)

/-- One iteration of the `while chunks` loop of `_wrap_chunks`: an optional
leading-whitespace drop (only once at least one line exists, signalled by
`dropLead`), then the line building. -/
def wrapIter (W : Nat) (indent : List Char) (dropLead : Bool) (chunks : List (List Char)) :
    Option (List Char) × List (List Char) :=
  let chunks1 := match chunks with
    | c :: cs => if dropLead && isWS c then cs else c :: cs
    | [] => []
  wrapFill W indent chunks1

/-- The `while chunks` loop; `first` records whether `lines` is still empty
(which selects `initial_indent` and suppresses the leading-whitespace
drop). -/
def wrapChunksAux (W : Nat) (ii si : List Char) : Nat → Bool → List (List Char) → List (List Char)
  | 0, _, _ => []
  | _ + 1, _, [] => []
  | fuel + 1, true, c :: cs =>
    match (wrapIter W ii false (c :: cs)).1 with
    | some l => l :: wrapChunksAux W ii si fuel false (wrapIter W ii false (c :: cs)).2
    | Option.none => wrapChunksAux W ii si fuel true (wrapIter W ii false (c :: cs)).2
  | fuel + 1, false, c :: cs =>
    match (wrapIter W si true (c :: cs)).1 with
    | some l => l :: wrapChunksAux W ii si fuel false (wrapIter W si true (c :: cs)).2
    | Option.none => wrapChunksAux W ii si fuel false (wrapIter W si true (c :: cs)).2

def chunkMeasure (chunks : List (List Char)) : Nat :=
  (chunks.map (fun c => c.length + 1)).sum

/-- Python 2.7 `textwrap.wrap(text, width = W, initial_indent = ii,
subsequent_indent = si)`. -/
def pyWrap (W : Nat) (ii si : String) (text : String) : List String :=
  let chunks := splitRuns (munge text.toList)
  (wrapChunksAux W ii.toList si.toList (chunkMeasure chunks + 1) true chunks).map
    (fun l => String.mk l)

/-! ### Python 2.7 `textwrap.dedent`

Lines consisting solely of blanks and tabs are first normalised to empty
lines; the common margin is then folded over the indents of the remaining
non-empty lines (two incomparable indents give the empty margin), and a
non-empty margin is stripped from the front of every line that carries
it. -/

/-- Python's `text.split('\n')`, over character lists. -/
def splitOnNl : List Char → List (List Char)
  | [] => [[]]
  | c :: cs =>
    if c = '\n' then [] :: splitOnNl cs
    else
      match splitOnNl cs with
      | [] => [[c]]
      | l :: ls => (c :: l) :: ls

/-- Python's `'\n'.join(lines)`, over character lists. -/
def joinNl : List (List Char) → List Char
  | [] => []
  | [l] => l
  | l :: ls => l ++ '\n' :: joinNl ls

def isBlankTab (c : Char) : Bool := (c == ' ') || (c == '\t')

/-- The `_whitespace_only_re` substitution: a non-empty line made solely
of blanks and tabs becomes empty. -/
def dedentBlankWS (l : List Char) : List Char :=
  if (!l.isEmpty) && l.all isBlankTab then [] else l

/-- The indent captured by `_leading_whitespace_re` on a (non-empty)
line. -/
def dedentIndentOf (l : List Char) : List Char := l.takeWhile isBlankTab

/-- The `startswith` test. -/
def listStartsWith : List Char → List Char → Bool
  | [], _ => true
  | _ :: _, [] => false
  | p :: ps, c :: cs => (p == c) && listStartsWith ps cs

def dedentMargin : Option (List Char) → List (List Char) → Option (List Char)
  | m, [] => m
  | m, ind :: rest =>
    match m with
    | Option.none => dedentMargin (some ind) rest
    | some mg =>
      if listStartsWith mg ind then dedentMargin (some mg) rest
      else if listStartsWith ind mg then dedentMargin (some ind) rest
      else dedentMargin (some []) rest

def pyDedent (text : String) : String :=
  let lines := (splitOnNl text.toList).map dedentBlankWS
  let indents := (lines.filter (fun l => !l.isEmpty)).map dedentIndentOf
  let margin := (dedentMargin Option.none indents).getD []
  let lines :=
    if !margin.isEmpty then
      lines.map (fun l => if listStartsWith margin l then l.drop margin.length else l)
    else lines
  String.mk (joinNl lines)

/-! ### The element tree

`Node` models an lxml element as consumed by the dumper: its tag, its own
`text` attribute (`Option` because lxml yields `None` for absent text), the
unique path string that `element.getroottree().getpath(element)` returns,
and the ordered direct children (`getchildren`).  `NodeList` is a bespoke
list so that the tree walk is mutual structural recursion. -/

mutual
inductive Node : Type where
  | mk (tag : String) (text : Option String) (path : String) (children : NodeList)
inductive NodeList : Type where
  | nil : NodeList
  | cons (head : Node) (tail : NodeList) : NodeList
end

def Node.tag : Node → String
  | Node.mk t _ _ _ => t

def Node.text : Node → Option String
  | Node.mk _ tx _ _ => tx

def Node.path : Node → String
  | Node.mk _ _ p _ => p

def Node.children : Node → NodeList
  | Node.mk _ _ _ cs => cs

def NodeList.toList : NodeList → List Node
  | NodeList.nil => []
  | NodeList.cons h t => h :: NodeList.toList t

/-- The first direct child carrying the given tag, as `element.find(tag)`
returns for a plain tag-name path. -/
def findChild (e : Node) (t : String) : Option Node :=
  (Node.children e).toList.find? (fun c => Node.tag c == t)

/- All strict descendants in document order, as `element.iterdescendants()`
yields them. -/
mutual
def Node.descendants : Node → List Node
  | Node.mk _ _ _ cs => NodeList.descList cs
def NodeList.descList : NodeList → List Node
  | NodeList.nil => []
  | NodeList.cons h t => (h :: Node.descendants h) ++ NodeList.descList t
end

/-! ### The dumper configuration

Each ruleset maps tags to keyword arguments for `format_element`; the
Python dicts such as `{'with_text': False}` hold a subset of the three
recognised keys, and the missing keys fall back to the defaults of
`kwargs.pop('recurse', False)` and of `format_element`'s signature
(`linebreak = False`, `with_text = True`).  Since a missing key and an
explicitly stored default value are indistinguishable to the code, a rule
is modelled as the fully defaulted record. -/

structure FormatRule where
  recurse : Bool
  with_text : Bool
  linebreak : Bool
deriving DecidableEq, Repr

/-- A ruleset is a Python dict whose keys are tag names or the wildcard
key `None`; it is modelled as its item list in iteration order. -/
abbrev Ruleset : Type := List (Option String × FormatRule)

/-- The class attribute `rulesets['book']`:
`{'section': {'with_text': False}, 'para': {'linebreak': True},
None: {'recurse': True}}`. -/
def bookRuleset : Ruleset :=
  [(some "section", FormatRule.mk false false false),
   (some "para", FormatRule.mk false true true),
   (Option.none, FormatRule.mk true true false)]

/-- The class attribute `rulesets['full']`: `{None: {'recurse': True}}`. -/
def fullRuleset : Ruleset :=
  [(Option.none, FormatRule.mk true true false)]

/-- The rule-selection loop of `dump._dump`: walk `rules.iteritems()`,
remembering the value at the wildcard key `None` in `dflt`, and stop at the
first entry whose key equals the element's tag; if no entry matched, use
the remembered wildcard value, and with none remembered the `assert`
fails. -/
def resolveRuleAux (tag : String) : Ruleset → Option FormatRule → Option FormatRule
  | [], dflt => dflt
  | (k, v) :: rest, dflt =>
    match k with
    | Option.none => resolveRuleAux tag rest (some v)
    | some t => if t = tag then some v else resolveRuleAux tag rest dflt

def resolveRule (rules : Ruleset) (tag : String) : Option FormatRule :=
  resolveRuleAux tag rules Option.none

/-- The spec's `ConfigurationError`, covering the code's failure paths:
`KeyError` from `self.rulesets[rules]` on an unknown preset name, the
failing `assert isinstance(rules, Mapping)`, and the failing
`assert vars().has_key('default')` for a tag with no rule. -/
inductive ConfigurationError : Type where
  | unknownPreset (name : String) : ConfigurationError
  | rulesNotMapping : ConfigurationError
  | noMatchingRule (tag : String) : ConfigurationError
deriving DecidableEq, Repr

/-- The duck-typed `rules` value: a mapping, a string naming a preset, or
any other Python value (`other`), which is neither a `Mapping` nor a
`basestring`. -/
inductive RulesArg : Type where
  | map (m : Ruleset) : RulesArg
  | str (s : String) : RulesArg
  | other : RulesArg
deriving DecidableEq, Repr

/-- The class attribute `rulesets`, as the lookup `self.rulesets[name]`. -/
def rulesetsLookup (name : String) : Option Ruleset :=
  if name = "book" then some bookRuleset
  else if name = "full" then some fullRuleset
  else Option.none

/-- The rules-resolution prelude of `dump`: a `Mapping` passes through, a
string is looked up in `rulesets` (an unknown name raises `KeyError`), and
anything else fails the `assert isinstance(rules, Mapping)`. -/
def resolveRulesArg : RulesArg → Except ConfigurationError Ruleset
  | RulesArg.map m => Except.ok m
  | RulesArg.str s =>
    match rulesetsLookup s with
    | some m => Except.ok m
    | Option.none => Except.error (ConfigurationError.unknownPreset s)
  | RulesArg.other => Except.error ConfigurationError.rulesNotMapping

/-- The recursion guard `maxdepth is None or maxdepth > depth`. -/
def mdAllows (md : Option Nat) (depth : Nat) : Bool :=
  match md with
  | Option.none => true
  | some m => decide (depth < m)

/-! ### Rendering -/

/-- The indent `'    ' * depth` of `relwrap`. -/
def indentOf (depth : Nat) : String := String.mk (List.replicate (4 * depth) ' ')

/-- The `wrap(...)` call inside `relwrap`: `initial_indent = '    ' * depth`,
`subsequent_indent = '    ' * depth + '  '`, `width = self.width` (the
`hasattr(self, 'width')` test always succeeds, `width` being a class
attribute). -/
def relwrapLines (W : Nat) (text : String) (depth : Nat) : List String :=
  pyWrap W (indentOf depth) (indentOf depth ++ "  ") text

/-- `relwrap`: the wrapped physical lines joined by newlines. -/
def relwrap (W : Nat) (text : String) (depth : Nat) : String :=
  String.intercalate "\n" (relwrapLines W text depth)

/-- The title computation of `format_element`:
`getattr(element.find('title'), 'text', '')` yields the empty string when
there is no title child and the child's `text` otherwise; a `None` text and
an empty text are both falsy, so both are merged to the empty string here,
and `title if title else '[{0}]'.format(element.tag)` then substitutes the
synthesized label. -/
def elementTitle (element : Node) : String :=
  let t : String :=
    match findChild element "title" with
    | Option.none => ""
    | some c =>
      match Node.text c with
      | Option.none => ""
      | some s => s
  if t = "" then "[" ++ Node.tag element ++ "]" else t

/-- The text computation of `format_element`:
`dedent(eltext if eltext else '')` applied to `getattr(element, 'text', '')`
(again merging the falsy `None` with the empty string). -/
def elementText (element : Node) : String :=
  pyDedent
    (match Node.text element with
     | Option.none => ""
     | some s => s)

/-- `format_element(element, depth, linebreak, with_text)`.  In the
`linebreak` branch the two wrapped blocks are joined by
`"\n".join([...])`; otherwise the single format string is wrapped at
`depth`. -/
def format_element (W : Nat) (element : Node) (depth : Nat)
    (linebreak : Bool) (with_text : Bool) : String :=
  if linebreak then
    relwrap W (elementTitle element ++ " (" ++ Node.path element ++ "):") depth
      ++ "\n" ++ relwrap W (elementText element) (depth + 1)
  else if with_text then
    relwrap W (elementTitle element ++ " (" ++ Node.path element ++ "): "
      ++ elementText element) depth
  else
    relwrap W (elementTitle element ++ " (" ++ Node.path element ++ ")") depth

/-! ### The recursive dump

One entry per executed `print`: the element, the depth it was printed at,
and the printed string.  The walk aborts (`Except.error`) at the first
element whose tag resolves to no rule, exactly where the Python `assert`
would raise. -/

abbrev DumpEntry : Type := Node × Nat × String

mutual
def dumpAux (W : Nat) (md : Option Nat) (rules : Ruleset) :
    Node → Nat → Except ConfigurationError (List DumpEntry)
  | Node.mk tag tx pth cs, depth =>
    match resolveRule rules tag with
    | Option.none => Except.error (ConfigurationError.noMatchingRule tag)
    | some kw =>
      let line := format_element W (Node.mk tag tx pth cs) depth kw.linebreak kw.with_text
      if kw.recurse && mdAllows md depth then
        match dumpChildren W md rules cs (depth + 1) with
        | Except.error err => Except.error err
        | Except.ok rest => Except.ok ((Node.mk tag tx pth cs, depth, line) :: rest)
      else Except.ok [(Node.mk tag tx pth cs, depth, line)]
def dumpChildren (W : Nat) (md : Option Nat) (rules : Ruleset) :
    NodeList → Nat → Except ConfigurationError (List DumpEntry)
  | NodeList.nil, _ => Except.ok []
  | NodeList.cons c cs, d =>
    match dumpAux W md rules c d with
    | Except.error err => Except.error err
    | Except.ok tr =>
      match dumpChildren W md rules cs d with
      | Except.error err => Except.error err
      | Except.ok trs => Except.ok (tr ++ trs)
end

/-- The dumper object: its stored configuration fields, in the source the
class attributes `maxdepth = None`, `width = 80`,
`rules = rulesets['book']`, possibly shadowed per instance. -/
structure LXML_Dumper where
  maxdepth : Option Nat
  width : Nat
  rules : RulesArg

/-- The keyword arguments of a `dump` call: each of `depth`, `maxdepth` and
`rules` may be absent (`Option.none`), in which case `kwargs.pop` falls
back to `0` or to the object attribute. -/
structure DumpKwargs where
  depth : Option Nat
  maxdepth : Option (Option Nat)
  rules : Option RulesArg

/-- The `dump` method.  It reads but never assigns the object attributes,
so the translation returns the unchanged object alongside the result, the
post-state of the call. -/
def LXML_Dumper.dump (self : LXML_Dumper) (element : Node) (kwargs : DumpKwargs) :
    Except ConfigurationError (List DumpEntry) × LXML_Dumper :=
  let depth := kwargs.depth.getD 0
  let maxdepth := kwargs.maxdepth.getD self.maxdepth
  let rules0 := kwargs.rules.getD self.rules
  match resolveRulesArg rules0 with
  | Except.error err => (Except.error err, self)
  | Except.ok rules => (dumpAux self.width maxdepth rules element depth, self)

/-! ### The visit order, from the spec

Modelled from the spec: the set of visited elements in document order —
pre-order, depth-first, left-to-right over ordered children — where the
walk descends below an element exactly when its resolved spec recurses and
`maxdepth` allows the next level, and descends below no element whose tag
resolves to no rule (there the walk fails). -/

mutual
def visitPreorder (md : Option Nat) (rules : Ruleset) : Node → Nat → List (Node × Nat)
  | Node.mk tag tx pth cs, depth =>
    (Node.mk tag tx pth cs, depth) ::
      (match resolveRule rules tag with
       | some kw =>
         if kw.recurse && mdAllows md depth then visitList md rules cs (depth + 1) else []
       | Option.none => [])
def visitList (md : Option Nat) (rules : Ruleset) : NodeList → Nat → List (Node × Nat)
  | NodeList.nil, _ => []
  | NodeList.cons c cs, d => visitPreorder md rules c d ++ visitList md rules cs d
end

/-! ### The tag graph -/

/-- The generator pattern shared by `iter_unique_child_tags` and
`iter_tag_list`: yield each element of the stream that is not yet in the
`found` set, adding it. -/
def dedupAux (seen : List String) : List String → List String
  | [] => []
  | t :: ts => if t ∈ seen then dedupAux seen ts else t :: dedupAux (t :: seen) ts

/-- `iter_tag_list(root)`: the unique tags of the descendant stream (the
`hasattr(n, 'tag')` guard never filters anything here, every modelled node
having a tag). -/
def iter_tag_list (root : Node) : List String :=
  dedupAux [] ((Node.descendants root).map Node.tag)

/-- `iter_unique_child_tags(root, tag)`: the unique tags among the direct
children of every descendant of `root` carrying `tag`. -/
def iter_unique_child_tags (root : Node) (tag : String) : List String :=
  dedupAux []
    (((((Node.descendants root).filter (fun n => Node.tag n == tag)).map
        (fun n => (Node.children n).toList)).flatten).map Node.tag)

/-- `build_tag_graph(root)`: a `pygraph` digraph, modelled as its node list
(added by `add_nodes(tags)`) and its edge list (added by the nested loops,
in order).  `add_edge` would raise on a duplicate edge or on an endpoint
that is not a node; the theorems below show the edges are pairwise distinct
and their endpoints are nodes, so the translation needs no error case. -/
def build_tag_graph (root : Node) : List String × List (String × String) :=
  let tags := iter_tag_list root
  (tags, (tags.map (fun p => (iter_unique_child_tags root p).map (fun c => (p, c)))).flatten)

/-! ### The attribute dictionary of `__init__`

`__init__` runs `self.__dict__.update(kwargs)`; attribute lookup then
consults the instance dictionary first and falls back to the class
attributes.  `PyValue` is a small universe of the Python values involved. -/

inductive PyValue : Type where
  | noneV : PyValue
  | natV (n : Nat) : PyValue
  | strV (s : String) : PyValue
  | rulesV (r : RulesArg) : PyValue
  | rulesetsV : PyValue
  | methodV (name : String) : PyValue
deriving DecidableEq, Repr

/-- The class attributes of `LXML_Dumper`: the three configuration
defaults, the `rulesets` table and the methods. -/
def classAttr (name : String) : Option PyValue :=
  if name = "rulesets" then some PyValue.rulesetsV
  else if name = "maxdepth" then some PyValue.noneV
  else if name = "width" then some (PyValue.natV 80)
  else if name = "rules" then some (PyValue.rulesV (RulesArg.map bookRuleset))
  else if name = "dump" ∨ name = "relwrap" ∨ name = "format_element"
      ∨ name = "iter_unique_child_tags" ∨ name = "iter_tag_list"
      ∨ name = "build_tag_graph" ∨ name = "write_graph" ∨ name = "write_tag_graph" then
    some (PyValue.methodV name)
  else Option.none

/-- `__init__(**kwargs)`: the fresh instance dictionary is exactly the
keyword-argument bag (Python keyword arguments carry pairwise distinct
keys). -/
def initDict (kwargs : List (String × PyValue)) : List (String × PyValue) := kwargs

/-- Dictionary lookup by key. -/
def pyLookup (name : String) : List (String × PyValue) → Option PyValue
  | [] => Option.none
  | kv :: rest => if kv.1 = name then some kv.2 else pyLookup name rest

/-- Attribute lookup on an instance: the instance dictionary shadows the
class attributes. -/
def instGetattr (inst : List (String × PyValue)) (name : String) : Option PyValue :=
  match pyLookup name inst with
  | some v => some v
  | Option.none => classAttr name

/-! ### Spec-side definitions

These definitions follow the words of the spec, not the source; the
theorems below compare them with the translated code. -/

/-- Modelled from the spec: the label is the text of the node's direct
child named `title` when that child is present and its text is non-empty,
and otherwise the synthesized form `[<tag>]`. -/
def specLabel (e : Node) : String :=
  match findChild e "title" with
  | some c =>
    match Node.text c with
    | some t => if t ≠ "" then t else "[" ++ Node.tag e ++ "]"
    | Option.none => "[" ++ Node.tag e ++ "]"
  | Option.none => "[" ++ Node.tag e ++ "]"

/-- Modelled from the spec: a sequence deduplicated to its first
occurrences, in first-encounter order. -/
def specFirstSeen (l : List String) : List String :=
  l.foldl (fun acc t => if t ∈ acc then acc else acc ++ [t]) []

/-- The physical lines of an emitted string: the split at the newlines
that join the wrapped blocks and wrapped lines. -/
def physLines (s : String) : List String :=
  (splitOnNl s.toList).map (fun l => String.mk l)

/-- The number of leading spaces of a physical line. -/
def countLeadingSpaces (s : String) : Nat :=
  (s.toList.takeWhile (fun c => c == ' ')).length

/-- The first character of the text is not Python whitespace (vacuous for
the empty text). -/
def headNotWS (s : String) : Prop :=
  ∀ c, s.toList.head? = some c → pyIsSpaceChar c = false

/-! ## Theorems -/

/-! ### C8: per-call overrides do not mutate the stored defaults -/

/-- C8.  A `dump` call with any per-call `depth` / `maxdepth` / `rules`
overrides returns the dumper object unchanged — its stored `maxdepth`,
`width` and `rules` fields are only read — and a later call on the
same object is therefore unaffected by the earlier overrides. -/
theorem spec_C8_dump_leaves_defaults_unchanged (self : LXML_Dumper) (element e2 : Node)
    (kw kw2 : DumpKwargs) :
    (self.dump element kw).2 = self
    ∧ ((self.dump element kw).2).dump e2 kw2 = self.dump e2 kw2 := by
  have h : (self.dump element kw).2 = self := by
    cases hr : resolveRulesArg (kw.rules.getD self.rules) <;>
      simp [LXML_Dumper.dump, hr]
  exact ⟨h, by rw [h]⟩

/-! ### C1: bad `rules` arguments fail -/

/-- C1.  Passing a `rules` string that names no preset (neither
`"book"` nor `"full"`) makes `dump` fail with a `ConfigurationError`
(the `KeyError` of `self.rulesets[rules]`), and a per-call or stored
`rules` value that is not map-like makes it fail with a
`ConfigurationError` as well (the failing
`assert isinstance(rules, Mapping)`). -/
theorem spec_C1_bad_rules_fail (self : LXML_Dumper) (element : Node) (dOpt : Option Nat)
    (mdOpt : Option (Option Nat)) (md : Option Nat) (w : Nat) (s : String)
    (hb : s ≠ "book") (hf : s ≠ "full") :
    (self.dump element (DumpKwargs.mk dOpt mdOpt (some (RulesArg.str s)))).1
      = Except.error (ConfigurationError.unknownPreset s)
    ∧ (self.dump element (DumpKwargs.mk dOpt mdOpt (some RulesArg.other))).1
      = Except.error ConfigurationError.rulesNotMapping
    ∧ ((LXML_Dumper.mk md w RulesArg.other).dump element
        (DumpKwargs.mk dOpt mdOpt Option.none)).1
      = Except.error ConfigurationError.rulesNotMapping := by
  have hr : resolveRulesArg (RulesArg.str s)
      = Except.error (ConfigurationError.unknownPreset s) := by
    simp only [resolveRulesArg, rulesetsLookup, if_neg hb, if_neg hf]
  refine ⟨?_, rfl, rfl⟩
  simp only [LXML_Dumper.dump, Option.getD, hr]

/-- Witness for C1 at the concrete unknown preset name of the spec. -/
theorem spec_C1_witness :
    ((LXML_Dumper.mk Option.none 80 (RulesArg.map bookRuleset)).dump
        (Node.mk "book" Option.none "/book" NodeList.nil)
        (DumpKwargs.mk Option.none Option.none (some (RulesArg.str "nonexistent")))).1
      = Except.error (ConfigurationError.unknownPreset "nonexistent") :=
  (spec_C1_bad_rules_fail (LXML_Dumper.mk Option.none 80 (RulesArg.map bookRuleset))
    (Node.mk "book" Option.none "/book" NodeList.nil) Option.none Option.none
    Option.none 80 "nonexistent" (by decide) (by decide)).1

/-! ### C10: the keyword-argument bag of `__init__` -/

lemma findKey_eq (k : String) (v : PyValue) :
    ∀ l : List (String × PyValue), (l.map Prod.fst).Nodup → (k, v) ∈ l →
      pyLookup k l = some v
  | [], _, h => absurd h (List.not_mem_nil _)
  | (k1, v1) :: tl, hnd, h => by
    rw [List.map_cons, List.nodup_cons] at hnd
    rcases List.mem_cons.mp h with heq | htl
    · have hk : k = k1 := congrArg Prod.fst heq
      have hv : v = v1 := congrArg Prod.snd heq
      subst hk
      subst hv
      simp [pyLookup]
    · have hkmem : k ∈ tl.map Prod.fst := List.mem_map_of_mem Prod.fst htl
      have hne : k1 ≠ k := fun h12 => hnd.1 (h12 ▸ hkmem)
      simp only [pyLookup, if_neg hne]
      exact findKey_eq k v tl hnd.2 htl

lemma findKey_none (k : String) :
    ∀ l : List (String × PyValue), (∀ v, (k, v) ∉ l) →
      pyLookup k l = Option.none
  | [], _ => rfl
  | (k1, v1) :: tl, h => by
    have hne : k1 ≠ k := by
      intro h1
      exact h v1 (by rw [h1]; exact List.mem_cons_self _ _)
    simp only [pyLookup, if_neg hne]
    exact findKey_none k tl (fun v hv => h v (List.mem_cons_of_mem _ hv))

/-- C10.  `__init__` copies every keyword argument into the instance
dictionary unvalidated: every given key-value pair is afterwards found by
attribute lookup (so a key matching a class default such as `maxdepth`,
`width`, `rules` or a method name shadows that default), unrecognized keys
are accepted silently, and lookup of any key not in the bag still reaches
the class attribute. -/
theorem spec_C10_init_copies_kwargs (kwargs : List (String × PyValue))
    (hnd : (kwargs.map Prod.fst).Nodup) :
    (∀ k v, (k, v) ∈ kwargs → instGetattr (initDict kwargs) k = some v)
    ∧ (∀ k, (∀ v, (k, v) ∉ kwargs) → instGetattr (initDict kwargs) k = classAttr k) := by
  constructor
  · intro k v hkv
    have h := findKey_eq k v kwargs hnd hkv
    simp [instGetattr, initDict, h]
  · intro k hk
    have h := findKey_none k kwargs hk
    simp [instGetattr, initDict, h]

/-- Witness for C10: a bag that shadows `width` and the method name `dump`
and injects the unrecognized key `frobnicate`; lookup of the untouched
`maxdepth` still reaches the class default. -/
theorem spec_C10_witness :
    instGetattr (initDict [("width", PyValue.natV 100), ("frobnicate", PyValue.strV "x"),
        ("dump", PyValue.natV 3)]) "width" = some (PyValue.natV 100)
    ∧ instGetattr (initDict [("width", PyValue.natV 100), ("frobnicate", PyValue.strV "x"),
        ("dump", PyValue.natV 3)]) "frobnicate" = some (PyValue.strV "x")
    ∧ instGetattr (initDict [("width", PyValue.natV 100), ("frobnicate", PyValue.strV "x"),
        ("dump", PyValue.natV 3)]) "dump" = some (PyValue.natV 3)
    ∧ instGetattr (initDict [("width", PyValue.natV 100), ("frobnicate", PyValue.strV "x"),
        ("dump", PyValue.natV 3)]) "maxdepth" = classAttr "maxdepth" := by
  have h := spec_C10_init_copies_kwargs
    [("width", PyValue.natV 100), ("frobnicate", PyValue.strV "x"), ("dump", PyValue.natV 3)]
    (by decide)
  refine ⟨h.1 _ _ ?_, h.1 _ _ ?_, h.1 _ _ ?_, h.2 _ ?_⟩
  · exact List.mem_cons_self _ _
  · exact List.mem_cons_of_mem _ (List.mem_cons_self _ _)
  · exact List.mem_cons_of_mem _ (List.mem_cons_of_mem _ (List.mem_cons_self _ _))
  · intro v hv
    have : ("maxdepth", v).1 ∈ [("width", PyValue.natV 100),
        ("frobnicate", PyValue.strV "x"), ("dump", PyValue.natV 3)].map Prod.fst :=
      List.mem_map_of_mem Prod.fst hv
    simp at this

/-! ### C5: the single-line rendering -/

lemma elementTitle_eq_specLabel (e : Node) : elementTitle e = specLabel e := by
  unfold elementTitle specLabel
  cases hf : findChild e "title" with
  | none => simp [hf]
  | some c =>
    cases ht : Node.text c with
    | none => simp [hf, ht]
    | some t => by_cases ht0 : t = "" <;> simp [hf, ht, ht0]

/-- C5.  Without `linebreak`, `format_element` emits the one wrapped line
built from the spec's label (the `title` child's text when present and
non-empty, else `[<tag>]`), the node's unique path, and — exactly when
`with_text` holds — the node's own dedented text (empty when absent). -/
theorem spec_C5_single_line_format (W : Nat) (e : Node) (depth : Nat) :
    format_element W e depth false true
      = relwrap W (specLabel e ++ " (" ++ Node.path e ++ "): "
          ++ pyDedent ((Node.text e).getD "")) depth
    ∧ format_element W e depth false false
      = relwrap W (specLabel e ++ " (" ++ Node.path e ++ ")") depth := by
  have htitle : elementTitle e = specLabel e := elementTitle_eq_specLabel e
  have htext : elementText e = pyDedent ((Node.text e).getD "") := by
    unfold elementText
    cases Node.text e <;> rfl
  constructor <;> simp [format_element, htitle, htext]

/-! ### Tree induction and unfolding equations -/

theorem treeInd (P : Node → Prop) (Q : NodeList → Prop)
    (hmk : ∀ tag tx pth cs, Q cs → P (Node.mk tag tx pth cs))
    (hnil : Q NodeList.nil)
    (hcons : ∀ hd tl, P hd → Q tl → Q (NodeList.cons hd tl)) :
    (∀ e, P e) ∧ (∀ l, Q l) :=
  ⟨fun e => @Node.rec P Q hmk hnil hcons e, fun l => @NodeList.rec P Q hmk hnil hcons l⟩

lemma dumpAux_eq (W : Nat) (md : Option Nat) (rules : Ruleset) (tag : String)
    (tx : Option String) (pth : String) (cs : NodeList) (depth : Nat) :
    dumpAux W md rules (Node.mk tag tx pth cs) depth
      = match resolveRule rules tag with
        | Option.none => Except.error (ConfigurationError.noMatchingRule tag)
        | some kw =>
          if kw.recurse && mdAllows md depth then
            match dumpChildren W md rules cs (depth + 1) with
            | Except.error err => Except.error err
            | Except.ok rest => Except.ok ((Node.mk tag tx pth cs, depth,
                format_element W (Node.mk tag tx pth cs) depth kw.linebreak kw.with_text) :: rest)
          else Except.ok [(Node.mk tag tx pth cs, depth,
            format_element W (Node.mk tag tx pth cs) depth kw.linebreak kw.with_text)] := by
  rw [dumpAux]

lemma dumpChildren_cons_eq (W : Nat) (md : Option Nat) (rules : Ruleset) (c : Node)
    (cs : NodeList) (d : Nat) :
    dumpChildren W md rules (NodeList.cons c cs) d
      = match dumpAux W md rules c d with
        | Except.error err => Except.error err
        | Except.ok tr =>
          match dumpChildren W md rules cs d with
          | Except.error err => Except.error err
          | Except.ok trs => Except.ok (tr ++ trs) := by
  rw [dumpChildren]

lemma visitPreorder_eq (md : Option Nat) (rules : Ruleset) (tag : String)
    (tx : Option String) (pth : String) (cs : NodeList) (depth : Nat) :
    visitPreorder md rules (Node.mk tag tx pth cs) depth
      = (Node.mk tag tx pth cs, depth) ::
        (match resolveRule rules tag with
         | some kw =>
           if kw.recurse && mdAllows md depth then visitList md rules cs (depth + 1) else []
         | Option.none => []) := by
  rw [visitPreorder]

/-! ### C3: the recursion guard -/

/-- C3.  For a node whose tag resolves to the rule `kw`, the children are
walked exactly when `kw.recurse` holds and `maxdepth` is unbounded or
exceeds the current depth — each child at `depth + 1`, under the same
ruleset — and otherwise the node contributes exactly its own rendered
entry.  In particular a non-recursing node emits no descendant entries
whatever `maxdepth` is, and `maxdepth = 0` at depth `0` emits exactly the
root entry even for a recursing rule. -/
theorem spec_C3_recursion_guard (W : Nat) (md : Option Nat) (rules : Ruleset) (tag : String)
    (tx : Option String) (pth : String) (cs : NodeList) (depth : Nat) (kw : FormatRule)
    (h : resolveRule rules tag = some kw) :
    ((kw.recurse && mdAllows md depth) = true →
      dumpAux W md rules (Node.mk tag tx pth cs) depth
        = Except.map (fun rest => (Node.mk tag tx pth cs, depth,
            format_element W (Node.mk tag tx pth cs) depth kw.linebreak kw.with_text) :: rest)
          (dumpChildren W md rules cs (depth + 1)))
    ∧ ((kw.recurse && mdAllows md depth) = false →
      dumpAux W md rules (Node.mk tag tx pth cs) depth
        = Except.ok [(Node.mk tag tx pth cs, depth,
            format_element W (Node.mk tag tx pth cs) depth kw.linebreak kw.with_text)])
    ∧ (kw.recurse = false →
      dumpAux W md rules (Node.mk tag tx pth cs) depth
        = Except.ok [(Node.mk tag tx pth cs, depth,
            format_element W (Node.mk tag tx pth cs) depth kw.linebreak kw.with_text)])
    ∧ (md = some 0 → depth = 0 →
      dumpAux W md rules (Node.mk tag tx pth cs) depth
        = Except.ok [(Node.mk tag tx pth cs, depth,
            format_element W (Node.mk tag tx pth cs) depth kw.linebreak kw.with_text)]) := by
  refine ⟨?_, ?_, ?_, ?_⟩
  · intro hc
    rw [dumpAux_eq]
    cases hdc : dumpChildren W md rules cs (depth + 1) <;> simp [h, hc, hdc, Except.map]
  · intro hc
    rw [dumpAux_eq]
    simp [h, hc]
  · intro hc
    rw [dumpAux_eq]
    simp [h, hc]
  · intro h0 hd
    subst h0
    subst hd
    rw [dumpAux_eq]
    simp [h, mdAllows]

/-- A concrete section node of the book ruleset: the rule does not recurse,
so the node emits exactly its own line although it has a child and
`maxdepth` is unbounded. -/
def paraChild : Node := Node.mk "para" (some "hello") "/s/p" NodeList.nil

def secNode : Node := Node.mk "section" Option.none "/s" (NodeList.cons paraChild NodeList.nil)

/-- Witness for C3 at the `section` rule of the `book` preset. -/
theorem spec_C3_witness :
    resolveRule bookRuleset "section" = some (FormatRule.mk false false false)
    ∧ dumpAux 80 Option.none bookRuleset secNode 0
      = Except.ok [(secNode, 0, format_element 80 secNode 0 false false)] :=
  ⟨rfl, (spec_C3_recursion_guard 80 Option.none bookRuleset "section" Option.none "/s"
    (NodeList.cons paraChild NodeList.nil) 0 (FormatRule.mk false false false) rfl).2.2.1 rfl⟩

/-! ### C7: the emission order is the pre-order document order -/

theorem dump_trace_preorder (W : Nat) (md : Option Nat) (rules : Ruleset) :
    (∀ e : Node, ∀ d tr, dumpAux W md rules e d = Except.ok tr →
        tr.map (fun x => (x.1, x.2.1)) = visitPreorder md rules e d)
    ∧ (∀ l : NodeList, ∀ d tr, dumpChildren W md rules l d = Except.ok tr →
        tr.map (fun x => (x.1, x.2.1)) = visitList md rules l d) := by
  refine treeInd _ _ ?_ ?_ ?_
  · intro tag tx pth cs ih d tr h
    rw [dumpAux_eq] at h
    rw [visitPreorder_eq]
    cases hrr : resolveRule rules tag with
    | none => simp [hrr] at h
    | some kw =>
      simp only [hrr] at h
      by_cases hc : (kw.recurse && mdAllows md d) = true
      · rw [if_pos hc] at h
        cases hdc : dumpChildren W md rules cs (d + 1) with
        | error err => simp [hdc] at h
        | ok rest =>
          simp only [hdc] at h
          injection h with h2
          subst h2
          have hrest := ih (d + 1) rest hdc
          simp [hc, hrest]
      · rw [if_neg hc] at h
        injection h with h2
        subst h2
        simp [hc]
  · intro d tr h
    rw [dumpChildren] at h
    injection h with h2
    subst h2
    rfl
  · intro hd tl ihh iht d tr h
    rw [dumpChildren_cons_eq] at h
    cases hh : dumpAux W md rules hd d with
    | error err => simp [hh] at h
    | ok tr1 =>
      simp only [hh] at h
      cases ht : dumpChildren W md rules tl d with
      | error err => simp [ht] at h
      | ok tr2 =>
        simp only [ht] at h
        injection h with h2
        subst h2
        show (tr1 ++ tr2).map _ = visitPreorder md rules hd d ++ visitList md rules tl d
        rw [List.map_append, ihh d tr1 hh, iht d tr2 ht]

/-- C7.  When `dump` succeeds, the sequence of printed entries is exactly
the spec's visit sequence: pre-order, depth-first, left-to-right over each
node's ordered children — each visited node's entry precedes those of its
visited descendants, and the entries of an earlier sibling's subtree
precede those of a later sibling's. -/
theorem spec_C7_document_order (W : Nat) (md : Option Nat) (rules : Ruleset) (e : Node)
    (d : Nat) (tr : List DumpEntry) (h : dumpAux W md rules e d = Except.ok tr) :
    tr.map (fun x => (x.1, x.2.1)) = visitPreorder md rules e d :=
  (dump_trace_preorder W md rules).1 e d tr h

/-- A tree of depth 3 with several siblings per level, dumped under the
`book` preset (the `section` rule does not recurse, so the deep `para`
below it stays unvisited). -/
def demoTree : Node :=
  Node.mk "book" Option.none "/book"
    (NodeList.cons (Node.mk "chapter" Option.none "/book/chapter[1]"
        (NodeList.cons (Node.mk "section" Option.none "/book/chapter[1]/section[1]"
            (NodeList.cons
              (Node.mk "para" (some "deep") "/book/chapter[1]/section[1]/para" NodeList.nil)
              NodeList.nil))
          (NodeList.cons (Node.mk "para" (some "text one") "/book/chapter[1]/para" NodeList.nil)
            NodeList.nil)))
      (NodeList.cons (Node.mk "chapter" Option.none "/book/chapter[2]"
          (NodeList.cons (Node.mk "para" (some "text two") "/book/chapter[2]/para" NodeList.nil)
            NodeList.nil))
        NodeList.nil))

/-- Witness for C7: on the concrete tree the dump succeeds and its
entry sequence is the spec's pre-order visit sequence. -/
theorem spec_C7_witness :
    dumpAux 80 Option.none bookRuleset demoTree 0
      = Except.ok ((dumpAux 80 Option.none bookRuleset demoTree 0).toOption.getD [])
    ∧ ((dumpAux 80 Option.none bookRuleset demoTree 0).toOption.getD []).map
        (fun x => (x.1, x.2.1))
      = visitPreorder Option.none bookRuleset demoTree 0 := by
  have h : dumpAux 80 Option.none bookRuleset demoTree 0
      = Except.ok ((dumpAux 80 Option.none bookRuleset demoTree 0).toOption.getD []) := rfl
  exact ⟨h, spec_C7_document_order 80 Option.none bookRuleset demoTree 0 _ h⟩

/-! ### C2: a tag with neither an explicit rule nor a wildcard -/

lemma resolveRuleAux_none_iff (tag : String) :
    ∀ (rs : Ruleset) (dflt : Option FormatRule),
      resolveRuleAux tag rs dflt = Option.none ↔
        (dflt = Option.none ∧ ∀ r ∈ rs, r.1 ≠ some tag ∧ r.1 ≠ Option.none)
  | [], dflt => by simp [resolveRuleAux]
  | (k, w) :: rs, dflt => by
    cases k with
    | none =>
      simp only [resolveRuleAux]
      rw [resolveRuleAux_none_iff tag rs (some w)]
      constructor
      · rintro ⟨h1, _⟩
        exact absurd h1 (Option.some_ne_none w)
      · rintro ⟨_, hall⟩
        have := (hall (Option.none, w) (List.mem_cons_self _ _)).2
        exact absurd rfl this
    | some t =>
      by_cases ht : t = tag
      · subst ht
        simp only [resolveRuleAux, if_pos rfl]
        constructor
        · intro h1
          exact absurd h1 (Option.some_ne_none w)
        · rintro ⟨_, hall⟩
          have := (hall (some t, w) (List.mem_cons_self _ _)).1
          exact absurd rfl this
      · simp only [resolveRuleAux, if_neg ht]
        rw [resolveRuleAux_none_iff tag rs dflt]
        constructor
        · rintro ⟨h1, h2⟩
          refine ⟨h1, fun r hr => ?_⟩
          rcases List.mem_cons.mp hr with heq | hr2
          · subst heq
            refine ⟨fun hcontra => ht (Option.some.inj hcontra), fun hcontra => ?_⟩
            exact Option.some_ne_none t hcontra
          · exact h2 r hr2
        · rintro ⟨h1, h2⟩
          exact ⟨h1, fun r hr => h2 r (List.mem_cons_of_mem _ hr)⟩

lemma dump_error_shape (W : Nat) (md : Option Nat) (rules : Ruleset) :
    (∀ e : Node, ∀ d err, dumpAux W md rules e d = Except.error err →
        ∃ t, err = ConfigurationError.noMatchingRule t)
    ∧ (∀ l : NodeList, ∀ d err, dumpChildren W md rules l d = Except.error err →
        ∃ t, err = ConfigurationError.noMatchingRule t) := by
  refine treeInd _ _ ?_ ?_ ?_
  · intro tag tx pth cs ih d err h
    rw [dumpAux_eq] at h
    cases hrr : resolveRule rules tag with
    | none =>
      simp only [hrr] at h
      injection h with h2
      exact ⟨tag, h2.symm⟩
    | some kw =>
      simp only [hrr] at h
      by_cases hc : (kw.recurse && mdAllows md d) = true
      · rw [if_pos hc] at h
        cases hdc : dumpChildren W md rules cs (d + 1) with
        | error err2 =>
          simp only [hdc] at h
          injection h with h2
          subst h2
          exact ih (d + 1) err2 hdc
        | ok rest => simp [hdc] at h
      · rw [if_neg hc] at h
        exact Except.noConfusion h
  · intro d err h
    rw [dumpChildren] at h
    exact Except.noConfusion h
  · intro hd tl ihh iht d err h
    rw [dumpChildren_cons_eq] at h
    cases hh : dumpAux W md rules hd d with
    | error err1 =>
      simp only [hh] at h
      injection h with h2
      subst h2
      exact ihh d err1 hh
    | ok tr1 =>
      simp only [hh] at h
      cases ht : dumpChildren W md rules tl d with
      | error err2 =>
        simp only [ht] at h
        injection h with h2
        subst h2
        exact iht d err2 ht
      | ok tr2 => simp [ht] at h

lemma dump_visit_norule_fails (W : Nat) (md : Option Nat) (rules : Ruleset) :
    (∀ e : Node, ∀ d, ∀ v : Node, ∀ dd : Nat, (v, dd) ∈ visitPreorder md rules e d →
        resolveRule rules (Node.tag v) = Option.none →
        ∃ t, dumpAux W md rules e d = Except.error (ConfigurationError.noMatchingRule t))
    ∧ (∀ l : NodeList, ∀ d, ∀ v : Node, ∀ dd : Nat, (v, dd) ∈ visitList md rules l d →
        resolveRule rules (Node.tag v) = Option.none →
        ∃ t, dumpChildren W md rules l d
          = Except.error (ConfigurationError.noMatchingRule t)) := by
  refine treeInd _ _ ?_ ?_ ?_
  · intro tag tx pth cs ih d v dd hv hnone
    rw [visitPreorder_eq] at hv
    rcases List.mem_cons.mp hv with heq | hrest
    · have hveq : v = Node.mk tag tx pth cs := congrArg Prod.fst heq
      have hvtag : Node.tag v = tag := by rw [hveq]; rfl
      rw [hvtag] at hnone
      refine ⟨tag, ?_⟩
      rw [dumpAux_eq]
      simp [hnone]
    · cases hrr : resolveRule rules tag with
      | none => simp [hrr] at hrest
      | some kw =>
        simp only [hrr] at hrest
        by_cases hc : (kw.recurse && mdAllows md d) = true
        · rw [if_pos hc] at hrest
          obtain ⟨t, hch⟩ := ih (d + 1) v dd hrest hnone
          refine ⟨t, ?_⟩
          rw [dumpAux_eq]
          simp [hrr, hc, hch]
        · rw [if_neg hc] at hrest
          cases hrest
  · intro d v dd hv _
    rw [visitList] at hv
    cases hv
  · intro hd tl ihh iht d v dd hv hnone
    rw [show visitList md rules (NodeList.cons hd tl) d
        = visitPreorder md rules hd d ++ visitList md rules tl d from rfl] at hv
    rcases List.mem_append.mp hv with h1 | h2
    · obtain ⟨t, hch⟩ := ihh d v dd h1 hnone
      refine ⟨t, ?_⟩
      rw [dumpChildren_cons_eq]
      simp [hch]
    · obtain ⟨t, hch⟩ := iht d v dd h2 hnone
      rw [dumpChildren_cons_eq]
      cases hh : dumpAux W md rules hd d with
      | error err1 =>
        obtain ⟨t1, ht1⟩ := (dump_error_shape W md rules).1 hd d err1 hh
        refine ⟨t1, ?_⟩
        simp [hh, ht1]
      | ok tr1 =>
        refine ⟨t, ?_⟩
        simp [hh, hch]

/-- C2.  If any node visited during the walk carries a tag with no
explicit entry in the active ruleset, and the ruleset holds no wildcard
(`None`) entry, the walk fails with a `ConfigurationError` — there is no
silent fallback. -/
theorem spec_C2_unmatched_tag_fails (W : Nat) (md : Option Nat) (rules : Ruleset)
    (root : Node) (depth : Nat) (v : Node) (dd : Nat)
    (hvisit : (v, dd) ∈ visitPreorder md rules root depth)
    (hexp : ∀ r ∈ rules, r.1 ≠ some (Node.tag v))
    (hwild : ∀ r ∈ rules, r.1 ≠ Option.none) :
    ∃ t, dumpAux W md rules root depth
      = Except.error (ConfigurationError.noMatchingRule t) := by
  have hnone : resolveRule rules (Node.tag v) = Option.none := by
    rw [resolveRule, resolveRuleAux_none_iff]
    exact ⟨rfl, fun r hr => ⟨hexp r hr, hwild r hr⟩⟩
  exact (dump_visit_norule_fails W md rules).1 root depth v dd hvisit hnone

/-- A ruleset with a single explicit entry and no wildcard. -/
def chapterOnlyRules : Ruleset := [(some "chapter", FormatRule.mk true true false)]

/-- Witness for C2: a `section` node under a ruleset that only covers
`chapter` and has no wildcard. -/
theorem spec_C2_witness :
    ∃ t, dumpAux 80 Option.none chapterOnlyRules secNode 0
      = Except.error (ConfigurationError.noMatchingRule t) := by
  refine spec_C2_unmatched_tag_fails 80 Option.none chapterOnlyRules secNode 0 secNode 0
    ?_ (by decide) (by decide)
  have h : visitPreorder Option.none chapterOnlyRules secNode 0 = [(secNode, 0)] := rfl
  rw [h]
  exact List.mem_cons_self _ _

/-! ### C9: the tag graph -/

lemma mem_dedupAux (a : String) :
    ∀ (l seen : List String), a ∈ dedupAux seen l ↔ a ∈ l ∧ a ∉ seen
  | [], seen => by simp [dedupAux]
  | t :: ts, seen => by
    by_cases hm : t ∈ seen
    · rw [dedupAux, if_pos hm, mem_dedupAux a ts seen]
      constructor
      · rintro ⟨h1, h2⟩
        exact ⟨List.mem_cons_of_mem _ h1, h2⟩
      · rintro ⟨h1, h2⟩
        rcases List.mem_cons.mp h1 with rfl | h3
        · exact absurd hm h2
        · exact ⟨h3, h2⟩
    · rw [dedupAux, if_neg hm]
      constructor
      · intro h1
        rcases List.mem_cons.mp h1 with rfl | h3
        · exact ⟨List.mem_cons_self _ _, hm⟩
        · have h4 := (mem_dedupAux a ts (t :: seen)).mp h3
          exact ⟨List.mem_cons_of_mem _ h4.1, fun hs => h4.2 (List.mem_cons_of_mem _ hs)⟩
      · rintro ⟨h1, h2⟩
        rcases List.mem_cons.mp h1 with rfl | h3
        · exact List.mem_cons_self _ _
        · by_cases hat : a = t
          · subst hat
            exact List.mem_cons_self _ _
          · refine List.mem_cons_of_mem _ ((mem_dedupAux a ts (t :: seen)).mpr ⟨h3, ?_⟩)
            intro hs
            rcases List.mem_cons.mp hs with h5 | h5
            · exact hat h5
            · exact h2 h5

lemma nodup_dedupAux : ∀ (l seen : List String), (dedupAux seen l).Nodup
  | [], _ => List.nodup_nil
  | t :: ts, seen => by
    rw [dedupAux]
    by_cases hm : t ∈ seen
    · rw [if_pos hm]
      exact nodup_dedupAux ts seen
    · rw [if_neg hm]
      refine List.nodup_cons.mpr ⟨?_, nodup_dedupAux ts (t :: seen)⟩
      intro hmem
      exact ((mem_dedupAux t ts (t :: seen)).mp hmem).2 (List.mem_cons_self _ _)

lemma sublist_dedupAux : ∀ (l seen : List String), List.Sublist (dedupAux seen l) l
  | [], _ => List.Sublist.refl []
  | t :: ts, seen => by
    rw [dedupAux]
    by_cases hm : t ∈ seen
    · rw [if_pos hm]
      exact List.Sublist.cons t (sublist_dedupAux ts seen)
    · rw [if_neg hm]
      exact List.Sublist.cons₂ t (sublist_dedupAux ts (t :: seen))

lemma dedupAux_congr : ∀ (l s1 s2 : List String), (∀ a, a ∈ s1 ↔ a ∈ s2) →
    dedupAux s1 l = dedupAux s2 l
  | [], _, _, _ => rfl
  | t :: ts, s1, s2, h => by
    rw [dedupAux, dedupAux]
    by_cases hm : t ∈ s1
    · rw [if_pos hm, if_pos ((h t).mp hm)]
      exact dedupAux_congr ts s1 s2 h
    · rw [if_neg hm, if_neg (fun hc => hm ((h t).mpr hc))]
      refine congrArg (List.cons t) (dedupAux_congr ts (t :: s1) (t :: s2) ?_)
      intro a
      simp [h a]

lemma foldl_firstSeen : ∀ (l acc : List String),
    l.foldl (fun acc t => if t ∈ acc then acc else acc ++ [t]) acc = acc ++ dedupAux acc l
  | [], acc => by simp [dedupAux]
  | t :: ts, acc => by
    rw [List.foldl_cons, dedupAux]
    by_cases hm : t ∈ acc
    · rw [if_pos hm, if_pos hm]
      exact foldl_firstSeen ts acc
    · rw [if_neg hm, if_neg hm, foldl_firstSeen ts (acc ++ [t]),
        dedupAux_congr ts (t :: acc) (acc ++ [t]) (by intro a; simp [or_comm])]
      simp

lemma specFirstSeen_eq_dedupAux (l : List String) : specFirstSeen l = dedupAux [] l := by
  rw [specFirstSeen, foldl_firstSeen l []]
  simp

lemma mem_tag_list (root : Node) (a : String) :
    a ∈ iter_tag_list root ↔ a ∈ (Node.descendants root).map Node.tag := by
  rw [iter_tag_list, mem_dedupAux]
  simp

lemma mem_unique_child_tags (root : Node) (p c : String) :
    c ∈ iter_unique_child_tags root p ↔
      ∃ d, d ∈ Node.descendants root ∧ Node.tag d = p
        ∧ c ∈ ((Node.children d).toList.map Node.tag) := by
  rw [iter_unique_child_tags, mem_dedupAux]
  simp only [List.not_mem_nil, not_false_iff, and_true, List.mem_map, List.mem_flatten,
    List.mem_filter, beq_iff_eq]
  constructor
  · rintro ⟨x, ⟨L, ⟨d, ⟨hd, hdp⟩, rfl⟩, hxL⟩, rfl⟩
    exact ⟨d, hd, hdp, x, hxL, rfl⟩
  · rintro ⟨d, hd, hdp, x, hx, rfl⟩
    exact ⟨x, ⟨(Node.children d).toList, ⟨d, ⟨hd, hdp⟩, rfl⟩, hx⟩, rfl⟩

lemma mem_tag_graph_edges (root : Node) (p c : String) :
    (p, c) ∈ (build_tag_graph root).2 ↔
      p ∈ iter_tag_list root ∧ c ∈ iter_unique_child_tags root p := by
  simp only [build_tag_graph, List.mem_flatten, List.mem_map]
  constructor
  · rintro ⟨L, ⟨q, hq, rfl⟩, hpc⟩
    rcases List.mem_map.mp hpc with ⟨c0, hc0, heq⟩
    have hq2 : q = p := congrArg Prod.fst heq
    have hc2 : c0 = c := congrArg Prod.snd heq
    subst hq2
    subst hc2
    exact ⟨hq, hc0⟩
  · rintro ⟨hp, hc⟩
    exact ⟨(iter_unique_child_tags root p).map (fun c => (p, c)),
      ⟨p, hp, rfl⟩, List.mem_map.mpr ⟨c, hc, rfl⟩⟩

lemma mem_descList_of_mem_toList : ∀ (l : NodeList) (x : Node),
    x ∈ l.toList → x ∈ NodeList.descList l
  | NodeList.nil, x, h => by cases h
  | NodeList.cons hd tl, x, h => by
    rw [NodeList.descList]
    rcases List.mem_cons.mp h with rfl | h2
    · exact List.mem_append_left _ (List.mem_cons_self _ _)
    · exact List.mem_append_right _ (mem_descList_of_mem_toList tl x h2)

lemma descendants_trans :
    (∀ e : Node, ∀ d x : Node, d ∈ Node.descendants e → x ∈ Node.descendants d →
      x ∈ Node.descendants e)
    ∧ (∀ l : NodeList, ∀ d x : Node, d ∈ NodeList.descList l → x ∈ Node.descendants d →
      x ∈ NodeList.descList l) := by
  refine treeInd _ _ ?_ ?_ ?_
  · intro tag tx pth cs ih d x hd hx
    exact ih d x hd hx
  · intro d x hd _
    cases hd
  · intro hd tl ihh iht d x hdm hx
    rw [NodeList.descList] at hdm ⊢
    rcases List.mem_append.mp hdm with h1 | h2
    · rcases List.mem_cons.mp h1 with rfl | h3
      · exact List.mem_append_left _ (List.mem_cons_of_mem _ hx)
      · exact List.mem_append_left _ (List.mem_cons_of_mem _ (ihh d x h3 hx))
    · exact List.mem_append_right _ (iht d x h2 hx)

/-- C9.  `build_tag_graph` returns the node list produced by the
tag-listing traversal — each tag at most once, in first-encounter document
order (it equals the spec's first-seen deduplication of the descendant tag
stream and is an order-preserving sublist of it) — and its edge list holds
`p → c` exactly when `c` is a direct-child tag of some descendant of
`root` tagged `p`; the edges are pairwise distinct with both endpoints
among the nodes (so the two `pygraph` calls cannot raise). -/
theorem spec_C9_tag_graph (root : Node) :
    (build_tag_graph root).1 = specFirstSeen ((Node.descendants root).map Node.tag)
    ∧ (build_tag_graph root).1.Nodup
    ∧ List.Sublist (build_tag_graph root).1 ((Node.descendants root).map Node.tag)
    ∧ (∀ p c, (p, c) ∈ (build_tag_graph root).2 ↔
        ∃ d, d ∈ Node.descendants root ∧ Node.tag d = p
          ∧ c ∈ ((Node.children d).toList.map Node.tag))
    ∧ (build_tag_graph root).2.Nodup
    ∧ (∀ p c, (p, c) ∈ (build_tag_graph root).2 →
        p ∈ (build_tag_graph root).1 ∧ c ∈ (build_tag_graph root).1) := by
  have hfst : (build_tag_graph root).1 = iter_tag_list root := rfl
  refine ⟨?_, ?_, ?_, ?_, ?_, ?_⟩
  · rw [hfst, specFirstSeen_eq_dedupAux, iter_tag_list]
  · rw [hfst, iter_tag_list]
    exact nodup_dedupAux _ _
  · rw [hfst, iter_tag_list]
    exact sublist_dedupAux _ _
  · intro p c
    rw [mem_tag_graph_edges, mem_unique_child_tags]
    constructor
    · rintro ⟨_, h⟩
      exact h
    · intro h
      refine ⟨?_, h⟩
      obtain ⟨d, hd, hdp, _⟩ := h
      rw [mem_tag_list]
      exact hdp ▸ List.mem_map_of_mem Node.tag hd
  · show ((iter_tag_list root).map
      (fun p => (iter_unique_child_tags root p).map (fun c => (p, c)))).flatten.Nodup
    rw [List.nodup_flatten]
    constructor
    · intro l hl
      rcases List.mem_map.mp hl with ⟨p, _, rfl⟩
      refine List.Nodup.map ?_ (nodup_dedupAux _ _)
      intro a b hab
      exact congrArg Prod.snd hab
    · refine List.Pairwise.map _ ?_ (nodup_dedupAux _ _)
      intro a b hab
      intro x hxa hxb
      rcases List.mem_map.mp hxa with ⟨c1, _, rfl⟩
      rcases List.mem_map.mp hxb with ⟨c2, _, heq⟩
      exact absurd (congrArg Prod.fst heq).symm hab
  · intro p c hpc
    have h := (mem_tag_graph_edges root p c).mp hpc
    rw [hfst]
    refine ⟨h.1, ?_⟩
    obtain ⟨d, hd, _, hc⟩ := (mem_unique_child_tags root p c).mp h.2
    rcases List.mem_map.mp hc with ⟨x, hx, rfl⟩
    have hxd : x ∈ Node.descendants d := by
      cases d with
      | mk t0 x0 p0 cs0 =>
        rw [Node.descendants]
        exact mem_descList_of_mem_toList cs0 x hx
    rw [mem_tag_list]
    exact List.mem_map_of_mem Node.tag (descendants_trans.1 root d x hd hxd)

/-- Witness for C9 at the concrete demo tree. -/
theorem spec_C9_witness :
    (build_tag_graph demoTree).1
      = specFirstSeen ((Node.descendants demoTree).map Node.tag)
    ∧ (build_tag_graph demoTree).1 = ["chapter", "section", "para"]
    ∧ (build_tag_graph demoTree).2
      = [("chapter", "section"), ("chapter", "para"), ("section", "para")] :=
  ⟨(spec_C9_tag_graph demoTree).1, by decide, by decide⟩

/-! ### C4: the `linebreak` rendering -/

lemma relwrap_empty (W : Nat) (depth : Nat) : relwrap W "" depth = "" := rfl

/-- A `para` node with empty text. -/
def emptyPara : Node := Node.mk "para" (some "") "/p" NodeList.nil

/-- Counterexample to C4 as stated: with empty text the `linebreak`
rendering consists of the summary line followed by an *empty* final line —
`textwrap.wrap('')` returns no lines, so the joined second block is the
empty string and the trailing blank line carries no indentation, whereas
the claim asserts a blank indented line at level `depth + 1` (here 4
spaces). -/
theorem spec_C4_counterexample :
    format_element 80 emptyPara 0 true true = "[para] (/p):" ++ "\n" ++ ""
    ∧ physLines (format_element 80 emptyPara 0 true true) = ["[para] (/p):", ""]
    ∧ countLeadingSpaces "" = 0
    ∧ 0 ≠ 4 * (0 + 1) := by
  refine ⟨by decide, by decide, rfl, by decide⟩

/-- C4, amended.  With `linebreak` the rendering is always the two wrapped
blocks — the summary `"<label> (<path>):"` at indent level `depth`, then
the wrap of the dedented text at indent level `depth + 1`, joined by one
newline — independently of `with_text`; when the (dedented) text is empty
its wrapped block is the *empty string* (wrapping an empty text yields no
lines), so the output is the summary block followed by a trailing newline
and a blank, unindented final line. -/
theorem spec_C4_linebreak_two_blocks (W : Nat) (e : Node) (depth : Nat) (wt : Bool) :
    format_element W e depth true wt
      = relwrap W (specLabel e ++ " (" ++ Node.path e ++ "):") depth
        ++ "\n" ++ relwrap W (elementText e) (depth + 1)
    ∧ (elementText e = "" →
        format_element W e depth true wt
          = relwrap W (specLabel e ++ " (" ++ Node.path e ++ "):") depth ++ "\n") := by
  have h1 : format_element W e depth true wt
      = relwrap W (specLabel e ++ " (" ++ Node.path e ++ "):") depth
        ++ "\n" ++ relwrap W (elementText e) (depth + 1) := by
    simp [format_element, elementTitle_eq_specLabel]
  refine ⟨h1, fun hempty => ?_⟩
  rw [h1, hempty, relwrap_empty]
  rw [String.append_empty]

/-- Witness for C4 (amended) at the concrete empty-text `para` node. -/
theorem spec_C4_witness :
    elementText emptyPara = ""
    ∧ format_element 80 emptyPara 0 true true
      = relwrap 80 (specLabel emptyPara ++ " (" ++ Node.path emptyPara ++ "):") 0 ++ "\n" :=
  ⟨rfl, (spec_C4_linebreak_two_blocks 80 emptyPara 0 true).2 rfl⟩

/-! ### C6: indentation and width of the wrapped lines -/

/-- Counterexample to C6 as stated, in both respects the amendment
restricts it.  First, the width bound fails once the indent reaches the
configured width: at depth 20 the initial indent is 80 blanks, so with the
default width 80 the wrapped physical lines of the two-character text are
81 and 83 characters wide (Python's `_handle_long_word` still places at
least one character after the indent).  Second, the exact first-line
indent fails when the wrapped text itself begins with whitespace (which
`dedent` can keep, the margin folding to the empty string on incomparable
indents): at depth 0 the text `" ab"` wraps to the single physical line
`" ab"`, which begins with one blank instead of `4 * 0 = 0`. -/
theorem spec_C6_counterexample :
    ((relwrapLines 80 "ab" 20).map String.length = [81, 83] ∧ ¬ (81 ≤ 80))
    ∧ (relwrapLines 80 " ab" 0 = [" ab"]
        ∧ countLeadingSpaces " ab" = 1 ∧ ¬ (1 = 4 * 0)) :=
  ⟨⟨by decide, by decide⟩, by decide, by decide, by decide⟩

/-- A chunk with no blank at all (a non-space run). -/
def spaceFree (c : List Char) : Bool := c.all (fun x => !(x == ' '))

/-- The invariant of the chunk lists handled by `_wrap_chunks`: non-empty
homogeneous runs of strictly alternating classes, the head run of class
`b` (`true` meaning a space run). -/
def RunsOK : Bool → List (List Char) → Prop
  | _, [] => True
  | b, r :: rs => r ≠ [] ∧ (∀ x ∈ r, (x == ' ') = b) ∧ RunsOK (!b) rs

lemma runsOK_isWS (b : Bool) (r : List Char) (rs : List (List Char))
    (h : RunsOK b (r :: rs)) : isWS r = b := by
  obtain ⟨hne, hcls, _⟩ := h
  cases b with
  | true =>
    simp only [isWS, List.all_eq_true]
    exact hcls
  | false =>
    cases r with
    | nil => exact absurd rfl hne
    | cons x xs =>
      have hx : (x == ' ') = false := hcls x (List.mem_cons_self _ _)
      simp only [isWS, List.all_cons, hx, Bool.false_and]

lemma spaceFree_of_runsOK_false (r : List Char) (rs : List (List Char))
    (h : RunsOK false (r :: rs)) : spaceFree r = true := by
  obtain ⟨_, hcls, _⟩ := h
  simp only [spaceFree, List.all_eq_true]
  intro x hx
  rw [hcls x hx]
  rfl

lemma isWS_false_of_spaceFree (r : List Char) (hne : r ≠ []) (hsf : spaceFree r = true) :
    isWS r = false := by
  cases r with
  | nil => exact absurd rfl hne
  | cons x xs =>
    have hx : (x == ' ') = false := by
      have := (List.all_eq_true.mp hsf) x (List.mem_cons_self _ _)
      cases hxx : (x == ' ')
      · rfl
      · rw [hxx] at this; cases this
    simp only [isWS, List.all_cons, hx, Bool.false_and]

lemma runsOK_splitRunsAux : ∀ (cs : List Char) (cls : Bool) (acc : List Char),
    acc ≠ [] → (∀ x ∈ acc, (x == ' ') = cls) → RunsOK cls (splitRunsAux cs cls acc)
  | [], cls, acc, hne, hcls => by
    rw [splitRunsAux]
    refine ⟨by simpa using hne, ?_, trivial⟩
    intro x hx
    exact hcls x (List.mem_reverse.mp hx)
  | c :: cs, cls, acc, hne, hcls => by
    rw [splitRunsAux]
    by_cases h : ((c == ' ') == cls) = true
    · rw [if_pos h]
      refine runsOK_splitRunsAux cs cls (c :: acc) (by simp) ?_
      intro x hx
      rcases List.mem_cons.mp hx with rfl | hx2
      · exact eq_of_beq h
      · exact hcls x hx2
    · rw [if_neg h]
      have hc : (c == ' ') = !cls := by
        cases hcc : (c == ' ') <;> cases hcl : cls <;> simp_all
      refine ⟨by simpa using hne, ?_, ?_⟩
      · intro x hx
        exact hcls x (List.mem_reverse.mp hx)
      · rw [← hc]
        refine runsOK_splitRunsAux cs (c == ' ') [c] (by simp) ?_
        intro x hx
        rcases List.mem_cons.mp hx with rfl | hx2
        · rfl
        · cases hx2

lemma runsOK_splitRuns_cons (c : Char) (cs : List Char) :
    RunsOK (c == ' ') (splitRuns (c :: cs)) := by
  rw [splitRuns]
  refine runsOK_splitRunsAux cs (c == ' ') [c] (by simp) ?_
  intro x hx
  rcases List.mem_cons.mp hx with rfl | hx2
  · rfl
  · cases hx2

lemma takeFit_append (avail : Int) :
    ∀ (chunks : List (List Char)) (curLen : Nat),
      (takeFit avail curLen chunks).1 ++ (takeFit avail curLen chunks).2.2 = chunks
  | [], _ => rfl
  | c :: cs, curLen => by
    by_cases h : ((curLen : Int) + (c.length : Int) ≤ avail)
    · simp only [takeFit, if_pos h, List.cons_append]
      exact congrArg (List.cons c) (takeFit_append avail cs (curLen + c.length))
    · simp [takeFit, if_neg h]

lemma takeFit_sum (avail : Int) :
    ∀ (chunks : List (List Char)) (curLen : Nat),
      (takeFit avail curLen chunks).2.1
        = curLen + (((takeFit avail curLen chunks).1).map List.length).sum
  | [], _ => by simp [takeFit]
  | c :: cs, curLen => by
    by_cases h : ((curLen : Int) + (c.length : Int) ≤ avail)
    · simp only [takeFit, if_pos h, List.map_cons, List.sum_cons]
      rw [takeFit_sum avail cs (curLen + c.length)]
      omega
    · simp [takeFit, if_neg h]

lemma takeFit_le (avail : Int) :
    ∀ (chunks : List (List Char)) (curLen : Nat), (curLen : Int) ≤ avail →
      ((takeFit avail curLen chunks).2.1 : Int) ≤ avail
  | [], curLen, h => by simpa [takeFit] using h
  | c :: cs, curLen, h => by
    by_cases hf : ((curLen : Int) + (c.length : Int) ≤ avail)
    · simp only [takeFit, if_pos hf]
      exact takeFit_le avail cs (curLen + c.length) (by push_cast; omega)
    · simpa [takeFit, if_neg hf] using h

lemma takeFit_runsOK (avail : Int) :
    ∀ (chunks : List (List Char)) (curLen : Nat) (b : Bool), RunsOK b chunks →
      ∃ b2, RunsOK b2 (takeFit avail curLen chunks).2.2
  | [], _, b, _ => ⟨b, trivial⟩
  | c :: cs, curLen, b, hro => by
    by_cases hf : ((curLen : Int) + (c.length : Int) ≤ avail)
    · simp only [takeFit, if_pos hf]
      exact takeFit_runsOK avail cs (curLen + c.length) (!b) hro.2.2
    · exact ⟨b, by simpa [takeFit, if_neg hf] using hro⟩

lemma dropTrailingWS_cases (cur : List (List Char)) :
    dropTrailingWS cur = cur ∨ dropTrailingWS cur = cur.dropLast := by
  cases h : cur.getLast? with
  | none => exact Or.inl (by simp [dropTrailingWS, h])
  | some c =>
    by_cases hc : isWS c = true
    · exact Or.inr (by simp [dropTrailingWS, h, hc])
    · exact Or.inl (by simp [dropTrailingWS, h, hc])

lemma sum_dropLast_le : ∀ (l : List (List Char)),
    ((l.dropLast).map List.length).sum ≤ (l.map List.length).sum
  | [] => by simp
  | [_] => by simp
  | x :: y :: ys => by
    simp only [List.dropLast_cons₂, List.map_cons, List.sum_cons]
    have h := sum_dropLast_le (y :: ys)
    simp only [List.map_cons, List.sum_cons] at h
    omega

lemma dropTrailingWS_sum (cur : List (List Char)) :
    (((dropTrailingWS cur).map List.length)).sum ≤ ((cur.map List.length)).sum := by
  rcases dropTrailingWS_cases cur with h | h
  · rw [h]
  · rw [h]
    exact sum_dropLast_le cur

lemma dropTrailingWS_head (cur : List (List Char)) (h0 : List Char)
    (hh : cur.head? = some h0) (hws : isWS h0 = false) :
    (dropTrailingWS cur).head? = some h0 ∧ dropTrailingWS cur ≠ [] := by
  cases cur with
  | nil => cases hh
  | cons x xs =>
    have hx : x = h0 := by injection hh
    subst hx
    cases xs with
    | nil =>
      constructor <;> simp [dropTrailingWS, hws]
    | cons y ys =>
      rcases dropTrailingWS_cases (x :: y :: ys) with hcase | hcase <;> rw [hcase]
      · exact ⟨rfl, by simp⟩
      · rw [List.dropLast_cons₂]
        exact ⟨rfl, by simp⟩

lemma takeWhile_space_lead : ∀ (ind : List Char), (∀ x ∈ ind, x = ' ') →
    ∀ (h0 : Char) (t : List Char), (h0 == ' ') = false →
      ((ind ++ h0 :: t).takeWhile (fun x => x == ' ')).length = ind.length
  | [], _, h0, t, hh => by
    simp only [List.nil_append, List.takeWhile_cons, hh]
    rfl
  | x :: ind, hind, h0, t, hh => by
    have hx : x = ' ' := hind x (List.mem_cons_self _ _)
    subst hx
    simp only [List.cons_append, List.takeWhile_cons, beq_self_eq_true, if_true,
      List.length_cons]
    exact congrArg Nat.succ
      (takeWhile_space_lead ind (fun y hy => hind y (List.mem_cons_of_mem _ hy)) h0 t hh)

lemma takeFit_rest_nofit (avail : Int) :
    ∀ (chunks : List (List Char)) (curLen : Nat) (c : List Char) (cs : List (List Char)),
      (takeFit avail curLen chunks).2.2 = c :: cs →
      avail < ((takeFit avail curLen chunks).2.1 : Int) + (c.length : Int)
  | [], curLen, c, cs => by
    intro h
    simp [takeFit] at h
  | c0 :: cs0, curLen, c, cs => by
    intro h
    by_cases hf : ((curLen : Int) + (c0.length : Int) ≤ avail)
    · simp only [takeFit, if_pos hf] at h ⊢
      exact takeFit_rest_nofit avail cs0 (curLen + c0.length) c cs h
    · simp only [takeFit, if_neg hf] at h ⊢
      have hc : c0 = c := by
        injection h
      subst hc
      omega

lemma wrapBuild_spec (avail : Int) (chunks1 : List (List Char))
    (h1 : 1 ≤ avail) (hro : RunsOK false chunks1) :
    (((wrapBuild avail chunks1).1.map List.length).sum ≤ avail.toNat)
    ∧ (∃ b3, RunsOK b3 (wrapBuild avail chunks1).2)
    ∧ (∀ c1 cs1, chunks1 = c1 :: cs1 →
        ∃ d0, (wrapBuild avail chunks1).1.head? = some d0 ∧ d0 ≠ [] ∧ spaceFree d0 = true)
    ∧ (chunks1 = [] → wrapBuild avail chunks1 = ([], [])) := by
  cases chunks1 with
  | nil =>
    refine ⟨by simp [wrapBuild, takeFit, handleLong, dropTrailingWS], ⟨false, ?_⟩, ?_, ?_⟩
    · simp only [wrapBuild, takeFit, handleLong]
      trivial
    · intro c1 cs1 h
      cases h
    · intro _
      rfl
  | cons c1 cs1 =>
    obtain ⟨hc1ne, hc1cls, hcs1⟩ := hro
    have hc1sf : spaceFree c1 = true := spaceFree_of_runsOK_false _ _ ⟨hc1ne, hc1cls, hcs1⟩
    have htsum := takeFit_sum avail (c1 :: cs1) 0
    have htle := takeFit_le avail (c1 :: cs1) 0 (by omega)
    have htro := takeFit_runsOK avail (c1 :: cs1) 0 false ⟨hc1ne, hc1cls, hcs1⟩
    have htapp := takeFit_append avail (c1 :: cs1) 0
    cases hT : (takeFit avail 0 (c1 :: cs1)).1 with
    | nil =>
      have hrest : (takeFit avail 0 (c1 :: cs1)).2.2 = c1 :: cs1 := by
        rw [hT] at htapp
        simpa using htapp
      have hlen0 : (takeFit avail 0 (c1 :: cs1)).2.1 = 0 := by
        rw [htsum, hT]
        simp
      have hfire : avail < (c1.length : Int) := by
        have h := takeFit_rest_nofit avail (c1 :: cs1) 0 c1 cs1 hrest
        rw [hlen0] at h
        simpa using h
      have hHL : handleLong avail (takeFit avail 0 (c1 :: cs1)).2.1
          (takeFit avail 0 (c1 :: cs1)).1 (takeFit avail 0 (c1 :: cs1)).2.2
          = ([c1.take avail.toNat], c1.drop avail.toNat :: cs1) := by
        rw [hT, hrest, hlen0]
        simp only [handleLong, if_pos hfire, if_neg (show ¬ avail < 1 by omega),
          Nat.cast_zero, sub_zero, List.nil_append]
      have hkpos : 1 ≤ avail.toNat := by omega
      have htkne : c1.take avail.toNat ≠ [] := by
        intro h
        rcases List.take_eq_nil_iff.mp h with h2 | h2
        · omega
        · exact hc1ne h2
      have htksf : spaceFree (c1.take avail.toNat) = true := by
        simp only [spaceFree, List.all_eq_true] at hc1sf ⊢
        intro x hx
        exact hc1sf x (List.mem_of_mem_take hx)
      have hDT : dropTrailingWS [c1.take avail.toNat] = [c1.take avail.toNat] := by
        simp [dropTrailingWS, isWS_false_of_spaceFree _ htkne htksf]
      have hB : wrapBuild avail (c1 :: cs1)
          = ([c1.take avail.toNat], c1.drop avail.toNat :: cs1) := by
        simp only [wrapBuild, hHL, hDT]
      rw [hB]
      have hdropne : c1.drop avail.toNat ≠ [] := by
        intro h
        have := List.drop_eq_nil_iff.mp h
        omega
      refine ⟨?_, ⟨false, ?_, ?_, hcs1⟩, ?_, ?_⟩
      · simp only [List.map_cons, List.map_nil, List.sum_cons, List.sum_nil]
        have := List.length_take avail.toNat c1
        omega
      · exact hdropne
      · intro x hx
        exact hc1cls x (List.mem_of_mem_drop hx)
      · intro a b h
        exact ⟨c1.take avail.toNat, rfl, htkne, htksf⟩
      · intro h
        cases h
    | cons a taken2 =>
      have ha : a = c1 := by
        rw [hT] at htapp
        simp only [List.cons_append] at htapp
        injection htapp
      rw [ha] at hT
      have hsum2 : ((takeFit avail 0 (c1 :: cs1)).2.1 : Int) ≤ avail := htle
      have hsumeq : (takeFit avail 0 (c1 :: cs1)).2.1
          = (((c1 :: taken2).map List.length)).sum := by
        rw [htsum, hT]
        simp
      cases hR : (takeFit avail 0 (c1 :: cs1)).2.2 with
      | nil =>
        have hHL : handleLong avail (takeFit avail 0 (c1 :: cs1)).2.1
            (takeFit avail 0 (c1 :: cs1)).1 (takeFit avail 0 (c1 :: cs1)).2.2
            = (c1 :: taken2, []) := by
          rw [hT, hR]
          rfl
        have hdt := dropTrailingWS_head (c1 :: taken2) c1 rfl
          (isWS_false_of_spaceFree _ hc1ne hc1sf)
        have hB1 : (wrapBuild avail (c1 :: cs1)).1 = dropTrailingWS (c1 :: taken2) := by
          simp only [wrapBuild, hHL]
        have hB2 : (wrapBuild avail (c1 :: cs1)).2 = [] := by
          simp only [wrapBuild, hHL]
        refine ⟨?_, ⟨false, by rw [hB2]; trivial⟩, ?_, ?_⟩
        · rw [hB1]
          have hle2 := dropTrailingWS_sum (c1 :: taken2)
          rw [← hsumeq] at hle2
          omega
        · intro x y h
          exact ⟨c1, by rw [hB1]; exact hdt.1, hc1ne, hc1sf⟩
        · intro h
          cases h
      | cons c2 cs2 =>
        obtain ⟨b2, hro2⟩ := htro
        rw [hR] at hro2
        by_cases hfire : avail < (c2.length : Int)
        · have hHL : handleLong avail (takeFit avail 0 (c1 :: cs1)).2.1
              (takeFit avail 0 (c1 :: cs1)).1 (takeFit avail 0 (c1 :: cs1)).2.2
              = ((c1 :: taken2)
                  ++ [c2.take (avail - ((takeFit avail 0 (c1 :: cs1)).2.1 : Int)).toNat],
                 c2.drop (avail - ((takeFit avail 0 (c1 :: cs1)).2.1 : Int)).toNat :: cs2) := by
            conv =>
              lhs
              rw [hT, hR]
            simp only [handleLong, if_pos hfire, if_neg (show ¬ avail < 1 by omega), hT]
          obtain ⟨hc2ne, hc2cls, hcs2⟩ := hro2
          have hklt : (avail - ((takeFit avail 0 (c1 :: cs1)).2.1 : Int)).toNat
              < c2.length := by
            omega
          have hdropne : c2.drop (avail - ((takeFit avail 0 (c1 :: cs1)).2.1 : Int)).toNat
              ≠ [] := by
            intro h
            have := List.drop_eq_nil_iff.mp h
            omega
          have hdt := dropTrailingWS_head
            ((c1 :: taken2)
              ++ [c2.take (avail - ((takeFit avail 0 (c1 :: cs1)).2.1 : Int)).toNat])
            c1 rfl (isWS_false_of_spaceFree _ hc1ne hc1sf)
          have hB1 : (wrapBuild avail (c1 :: cs1)).1
              = dropTrailingWS ((c1 :: taken2)
                ++ [c2.take (avail - ((takeFit avail 0 (c1 :: cs1)).2.1 : Int)).toNat]) := by
            simp only [wrapBuild, hHL]
          have hB2 : (wrapBuild avail (c1 :: cs1)).2
              = c2.drop (avail - ((takeFit avail 0 (c1 :: cs1)).2.1 : Int)).toNat :: cs2 := by
            simp only [wrapBuild, hHL]
          refine ⟨?_, ⟨b2, ?_⟩, ?_, ?_⟩
          · rw [hB1]
            have hle2 := dropTrailingWS_sum ((c1 :: taken2)
              ++ [c2.take (avail - ((takeFit avail 0 (c1 :: cs1)).2.1 : Int)).toNat])
            have hsumapp : ((((c1 :: taken2)
                ++ [c2.take (avail - ((takeFit avail 0 (c1 :: cs1)).2.1 : Int)).toNat]).map
                  List.length)).sum
                = (((c1 :: taken2).map List.length)).sum
                  + (c2.take
                      (avail - ((takeFit avail 0 (c1 :: cs1)).2.1 : Int)).toNat).length := by
              simp [Nat.add_assoc]
            have hlt := List.length_take
              (avail - ((takeFit avail 0 (c1 :: cs1)).2.1 : Int)).toNat c2
            rw [hsumapp] at hle2
            rw [← hsumeq] at hle2
            omega
          · rw [hB2]
            refine ⟨hdropne, ?_, hcs2⟩
            intro x hx
            exact hc2cls x (List.mem_of_mem_drop hx)
          · intro x y h
            exact ⟨c1, by rw [hB1]; exact hdt.1, hc1ne, hc1sf⟩
          · intro h
            cases h
        · have hHL : handleLong avail (takeFit avail 0 (c1 :: cs1)).2.1
              (takeFit avail 0 (c1 :: cs1)).1 (takeFit avail 0 (c1 :: cs1)).2.2
              = (c1 :: taken2, c2 :: cs2) := by
            conv =>
              lhs
              rw [hT, hR]
            simp only [handleLong, if_neg hfire]
          have hdt := dropTrailingWS_head (c1 :: taken2) c1 rfl
            (isWS_false_of_spaceFree _ hc1ne hc1sf)
          have hB1 : (wrapBuild avail (c1 :: cs1)).1 = dropTrailingWS (c1 :: taken2) := by
            simp only [wrapBuild, hHL]
          have hB2 : (wrapBuild avail (c1 :: cs1)).2 = c2 :: cs2 := by
            simp only [wrapBuild, hHL]
          refine ⟨?_, ⟨b2, by rw [hB2]; exact hro2⟩, ?_, ?_⟩
          · rw [hB1]
            have hle2 := dropTrailingWS_sum (c1 :: taken2)
            rw [← hsumeq] at hle2
            omega
          · intro x y h
            exact ⟨c1, by rw [hB1]; exact hdt.1, hc1ne, hc1sf⟩
          · intro h
            cases h

lemma wrapFill_spec (W : Nat) (ind : List Char) (chunks1 : List (List Char))
    (hind : ∀ x ∈ ind, x = ' ') (hlen : ind.length < W) (hro : RunsOK false chunks1) :
    (∀ l, (wrapFill W ind chunks1).1 = some l →
        l.length ≤ W ∧ (l.takeWhile (fun x => x == ' ')).length = ind.length)
    ∧ (∃ b2, RunsOK b2 (wrapFill W ind chunks1).2)
    ∧ ((wrapFill W ind chunks1).1 = Option.none → (wrapFill W ind chunks1).2 = []) := by
  have h1 : (1 : Int) ≤ (W : Int) - (ind.length : Int) := by omega
  obtain ⟨hsum, ⟨b3, hro3⟩, hhead, hemp⟩ :=
    wrapBuild_spec ((W : Int) - (ind.length : Int)) chunks1 h1 hro
  have hsnd : (wrapFill W ind chunks1).2
      = (wrapBuild ((W : Int) - (ind.length : Int)) chunks1).2 := rfl
  cases chunks1 with
  | nil =>
    have hb := hemp rfl
    refine ⟨?_, ⟨b3, by rw [hsnd]; exact hro3⟩, fun _ => by rw [hsnd, hb]⟩
    intro l hl
    rw [show (wrapFill W ind ([] : List (List Char))).1 = Option.none from by
      simp [wrapFill, wrapEmit, hb]] at hl
    cases hl
  | cons c1 cs1 =>
    obtain ⟨d0, hd0head, hd0ne, hd0sf⟩ := hhead c1 cs1 rfl
    have hcurne : (wrapBuild ((W : Int) - (ind.length : Int)) (c1 :: cs1)).1 ≠ [] := by
      intro hc
      rw [hc] at hd0head
      cases hd0head
    have hfill1 : (wrapFill W ind (c1 :: cs1)).1
        = some (ind ++ (wrapBuild ((W : Int) - (ind.length : Int)) (c1 :: cs1)).1.flatten) := by
      simp only [wrapFill, wrapEmit]
      rw [if_neg (by simp [hcurne])]
    refine ⟨?_, ⟨b3, by rw [hsnd]; exact hro3⟩, ?_⟩
    · intro l hl
      rw [hfill1] at hl
      injection hl with hl2
      subst hl2
      constructor
      · rw [List.length_append, List.length_flatten]
        have havailtn : ((W : Int) - (ind.length : Int)).toNat = W - ind.length := by omega
        rw [havailtn] at hsum
        omega
      · obtain ⟨cur2, hcur2⟩ : ∃ cur2,
            (wrapBuild ((W : Int) - (ind.length : Int)) (c1 :: cs1)).1 = d0 :: cur2 := by
          cases hcc : (wrapBuild ((W : Int) - (ind.length : Int)) (c1 :: cs1)).1 with
          | nil =>
            rw [hcc] at hd0head
            cases hd0head
          | cons z zs =>
            rw [hcc] at hd0head
            injection hd0head with hz
            exact ⟨zs, by rw [hz]⟩
        rw [hcur2]
        cases d0 with
        | nil => exact absurd rfl hd0ne
        | cons dc dt =>
          have hdc : (dc == ' ') = false := by
            have hsf := List.all_eq_true.mp hd0sf dc (List.mem_cons_self _ _)
            cases h2 : (dc == ' ')
            · rfl
            · simp [h2] at hsf
          rw [List.flatten_cons, List.cons_append]
          exact takeWhile_space_lead ind hind dc _ hdc
    · intro hnone
      rw [hfill1] at hnone
      cases hnone

lemma wrapIter_spec (W : Nat) (ind : List Char) (dropLead : Bool) (chunks : List (List Char))
    (b : Bool) (hro : RunsOK b chunks)
    (hind : ∀ x ∈ ind, x = ' ') (hlen : ind.length < W)
    (hfirst : dropLead = false → b = false) :
    (∀ l, (wrapIter W ind dropLead chunks).1 = some l →
        l.length ≤ W ∧ (l.takeWhile (fun x => x == ' ')).length = ind.length)
    ∧ (∃ b2, RunsOK b2 (wrapIter W ind dropLead chunks).2)
    ∧ ((wrapIter W ind dropLead chunks).1 = Option.none →
        (wrapIter W ind dropLead chunks).2 = []) := by
  cases chunks with
  | nil =>
    have heq : wrapIter W ind dropLead [] = wrapFill W ind [] := rfl
    rw [heq]
    exact wrapFill_spec W ind [] hind hlen trivial
  | cons c cs =>
    cases dropLead with
    | false =>
      have hb : b = false := hfirst rfl
      subst hb
      have heq : wrapIter W ind false (c :: cs) = wrapFill W ind (c :: cs) := by
        simp [wrapIter]
      rw [heq]
      exact wrapFill_spec W ind (c :: cs) hind hlen hro
    | true =>
      have hwsc : isWS c = b := runsOK_isWS b c cs hro
      by_cases hws : isWS c = true
      · have hb : b = true := by rw [← hwsc, hws]
        have heq : wrapIter W ind true (c :: cs) = wrapFill W ind cs := by
          simp [wrapIter, hws]
        rw [heq]
        refine wrapFill_spec W ind cs hind hlen ?_
        have h2 := hro.2.2
        rw [hb] at h2
        exact h2
      · have hb : b = false := by
          rw [← hwsc]
          cases h2 : isWS c
          · rfl
          · exact absurd h2 hws
        have heq : wrapIter W ind true (c :: cs) = wrapFill W ind (c :: cs) := by
          simp [wrapIter, hws]
        rw [heq]
        refine wrapFill_spec W ind (c :: cs) hind hlen ?_
        rw [← hb]
        exact hro

lemma wrapLines_cont (W : Nat) (ii si : List Char)
    (hsi : ∀ x ∈ si, x = ' ') (hlensi : si.length < W) :
    ∀ (fuel : Nat) (chunks : List (List Char)) (b : Bool), RunsOK b chunks →
      ∀ l ∈ wrapChunksAux W ii si fuel false chunks,
        l.length ≤ W ∧ (l.takeWhile (fun x => x == ' ')).length = si.length
  | 0, chunks, b, hro => by
    intro l hl
    simp [wrapChunksAux] at hl
  | fuel + 1, [], b, hro => by
    intro l hl
    simp [wrapChunksAux] at hl
  | fuel + 1, c :: cs, b, hro => by
    intro l hl
    obtain ⟨hline, hrest, hnone⟩ :=
      wrapIter_spec W si true (c :: cs) b hro hsi hlensi (fun h => Bool.noConfusion h)
    rw [wrapChunksAux] at hl
    cases hr : (wrapIter W si true (c :: cs)).1 with
    | some l0 =>
      simp only [hr] at hl
      rcases List.mem_cons.mp hl with rfl | hl2
      · exact hline l hr
      · obtain ⟨b2, hro2⟩ := hrest
        exact wrapLines_cont W ii si hsi hlensi fuel _ b2 hro2 l hl2
    | none =>
      simp only [hr] at hl
      rw [hnone hr] at hl
      cases fuel <;> simp [wrapChunksAux] at hl

lemma wrapLines_first (W : Nat) (ii si : List Char)
    (hii : ∀ x ∈ ii, x = ' ') (hsi : ∀ x ∈ si, x = ' ')
    (hlenii : ii.length < W) (hlensi : si.length < W)
    (fuel : Nat) (chunks : List (List Char)) (hro : RunsOK false chunks) :
    (∀ l, (wrapChunksAux W ii si fuel true chunks).head? = some l →
        l.length ≤ W ∧ (l.takeWhile (fun x => x == ' ')).length = ii.length)
    ∧ (∀ l ∈ (wrapChunksAux W ii si fuel true chunks).tail,
        l.length ≤ W ∧ (l.takeWhile (fun x => x == ' ')).length = si.length) := by
  cases fuel with
  | zero =>
    constructor
    · intro l hl
      simp [wrapChunksAux] at hl
    · intro l hl
      simp [wrapChunksAux] at hl
  | succ fuel =>
    cases chunks with
    | nil =>
      constructor
      · intro l hl
        simp [wrapChunksAux] at hl
      · intro l hl
        simp [wrapChunksAux] at hl
    | cons c cs =>
      obtain ⟨hline, hrest, hnone⟩ :=
        wrapIter_spec W ii false (c :: cs) false hro hii hlenii (fun _ => rfl)
      rw [wrapChunksAux]
      cases hr : (wrapIter W ii false (c :: cs)).1 with
      | some l0 =>
        simp only [hr]
        constructor
        · intro l hl
          rw [List.head?_cons] at hl
          injection hl with hl2
          subst hl2
          exact hline l0 hr
        · intro l hl
          rw [List.tail_cons] at hl
          obtain ⟨b2, hro2⟩ := hrest
          exact wrapLines_cont W ii si hsi hlensi fuel _ b2 hro2 l hl
      | none =>
        simp only [hr]
        rw [hnone hr]
        constructor
        · intro l hl
          cases fuel <;> simp [wrapChunksAux] at hl
        · intro l hl
          cases fuel <;> simp [wrapChunksAux] at hl

lemma munge_head (c : Char) (cs : List Char) (hc : pyIsSpaceChar c = false) :
    munge (c :: cs) = c :: (expandTabsAux cs 1).map (fun x => if pyIsSpaceChar x then ' ' else x) := by
  have ht : ¬ (c = '\t') := by
    intro h
    subst h
    simp [pyIsSpaceChar] at hc
  have hnr : ¬ (c = '\n' ∨ c = '\r') := by
    rintro (h | h) <;> (subst h; simp [pyIsSpaceChar] at hc)
  rw [munge, expandTabsAux, if_neg ht, if_neg hnr]
  simp [hc]

lemma wrapBuild_width (avail : Int) (chunks1 : List (List Char)) (h1 : 1 ≤ avail) :
    (((wrapBuild avail chunks1).1.map List.length)).sum ≤ avail.toNat := by
  cases chunks1 with
  | nil => simp [wrapBuild, takeFit, handleLong, dropTrailingWS]
  | cons c1 cs1 =>
    have htsum := takeFit_sum avail (c1 :: cs1) 0
    have htle := takeFit_le avail (c1 :: cs1) 0 (by omega)
    have htapp := takeFit_append avail (c1 :: cs1) 0
    cases hT : (takeFit avail 0 (c1 :: cs1)).1 with
    | nil =>
      have hrest : (takeFit avail 0 (c1 :: cs1)).2.2 = c1 :: cs1 := by
        rw [hT] at htapp
        simpa using htapp
      have hlen0 : (takeFit avail 0 (c1 :: cs1)).2.1 = 0 := by
        rw [htsum, hT]
        simp
      have hfire : avail < (c1.length : Int) := by
        have h := takeFit_rest_nofit avail (c1 :: cs1) 0 c1 cs1 hrest
        rw [hlen0] at h
        simpa using h
      have hHL : handleLong avail (takeFit avail 0 (c1 :: cs1)).2.1
          (takeFit avail 0 (c1 :: cs1)).1 (takeFit avail 0 (c1 :: cs1)).2.2
          = ([c1.take avail.toNat], c1.drop avail.toNat :: cs1) := by
        rw [hT, hrest, hlen0]
        simp only [handleLong, if_pos hfire, if_neg (show ¬ avail < 1 by omega),
          Nat.cast_zero, sub_zero, List.nil_append]
      have hB1 : (wrapBuild avail (c1 :: cs1)).1 = dropTrailingWS [c1.take avail.toNat] := by
        simp only [wrapBuild, hHL]
      rw [hB1]
      have hds := dropTrailingWS_sum [c1.take avail.toNat]
      have hlt := List.length_take avail.toNat c1
      simp only [List.map_cons, List.map_nil, List.sum_cons, List.sum_nil] at hds
      omega
    | cons a taken2 =>
      have hsumeq : (takeFit avail 0 (c1 :: cs1)).2.1
          = (((a :: taken2).map List.length)).sum := by
        rw [htsum, hT]
        simp
      cases hR : (takeFit avail 0 (c1 :: cs1)).2.2 with
      | nil =>
        have hHL : handleLong avail (takeFit avail 0 (c1 :: cs1)).2.1
            (takeFit avail 0 (c1 :: cs1)).1 (takeFit avail 0 (c1 :: cs1)).2.2
            = (a :: taken2, []) := by
          rw [hT, hR]
          rfl
        have hB1 : (wrapBuild avail (c1 :: cs1)).1 = dropTrailingWS (a :: taken2) := by
          simp only [wrapBuild, hHL]
        rw [hB1]
        have hds := dropTrailingWS_sum (a :: taken2)
        rw [← hsumeq] at hds
        omega
      | cons c2 cs2 =>
        by_cases hfire : avail < (c2.length : Int)
        · have hHL : handleLong avail (takeFit avail 0 (c1 :: cs1)).2.1
              (takeFit avail 0 (c1 :: cs1)).1 (takeFit avail 0 (c1 :: cs1)).2.2
              = ((a :: taken2)
                  ++ [c2.take (avail - ((takeFit avail 0 (c1 :: cs1)).2.1 : Int)).toNat],
                 c2.drop (avail - ((takeFit avail 0 (c1 :: cs1)).2.1 : Int)).toNat :: cs2) := by
            conv =>
              lhs
              rw [hT, hR]
            simp only [handleLong, if_pos hfire, if_neg (show ¬ avail < 1 by omega), hT]
          have hB1 : (wrapBuild avail (c1 :: cs1)).1
              = dropTrailingWS ((a :: taken2)
                ++ [c2.take (avail - ((takeFit avail 0 (c1 :: cs1)).2.1 : Int)).toNat]) := by
            simp only [wrapBuild, hHL]
          rw [hB1]
          have hds := dropTrailingWS_sum ((a :: taken2)
            ++ [c2.take (avail - ((takeFit avail 0 (c1 :: cs1)).2.1 : Int)).toNat])
          have hsumapp : ((((a :: taken2)
              ++ [c2.take (avail - ((takeFit avail 0 (c1 :: cs1)).2.1 : Int)).toNat]).map
                List.length)).sum
              = (((a :: taken2).map List.length)).sum
                + (c2.take
                    (avail - ((takeFit avail 0 (c1 :: cs1)).2.1 : Int)).toNat).length := by
            simp [Nat.add_assoc]
          have hlt := List.length_take
            (avail - ((takeFit avail 0 (c1 :: cs1)).2.1 : Int)).toNat c2
          rw [hsumapp] at hds
          rw [← hsumeq] at hds
          omega
        · have hHL : handleLong avail (takeFit avail 0 (c1 :: cs1)).2.1
              (takeFit avail 0 (c1 :: cs1)).1 (takeFit avail 0 (c1 :: cs1)).2.2
              = (a :: taken2, c2 :: cs2) := by
            conv =>
              lhs
              rw [hT, hR]
            simp only [handleLong, if_neg hfire]
          have hB1 : (wrapBuild avail (c1 :: cs1)).1 = dropTrailingWS (a :: taken2) := by
            simp only [wrapBuild, hHL]
          rw [hB1]
          have hds := dropTrailingWS_sum (a :: taken2)
          rw [← hsumeq] at hds
          omega

lemma wrapBuild_runsOK (avail : Int) (chunks1 : List (List Char)) (b : Bool)
    (h1 : 1 ≤ avail) (hro : RunsOK b chunks1) :
    ∃ b2, RunsOK b2 (wrapBuild avail chunks1).2 := by
  cases chunks1 with
  | nil =>
    refine ⟨false, ?_⟩
    simp only [wrapBuild, takeFit, handleLong]
    trivial
  | cons c1 cs1 =>
    obtain ⟨hc1ne, hc1cls, hcs1⟩ := hro
    have htsum := takeFit_sum avail (c1 :: cs1) 0
    have htle := takeFit_le avail (c1 :: cs1) 0 (by omega)
    have htro := takeFit_runsOK avail (c1 :: cs1) 0 b ⟨hc1ne, hc1cls, hcs1⟩
    have htapp := takeFit_append avail (c1 :: cs1) 0
    cases hT : (takeFit avail 0 (c1 :: cs1)).1 with
    | nil =>
      have hrest : (takeFit avail 0 (c1 :: cs1)).2.2 = c1 :: cs1 := by
        rw [hT] at htapp
        simpa using htapp
      have hlen0 : (takeFit avail 0 (c1 :: cs1)).2.1 = 0 := by
        rw [htsum, hT]
        simp
      have hfire : avail < (c1.length : Int) := by
        have h := takeFit_rest_nofit avail (c1 :: cs1) 0 c1 cs1 hrest
        rw [hlen0] at h
        simpa using h
      have hHL : handleLong avail (takeFit avail 0 (c1 :: cs1)).2.1
          (takeFit avail 0 (c1 :: cs1)).1 (takeFit avail 0 (c1 :: cs1)).2.2
          = ([c1.take avail.toNat], c1.drop avail.toNat :: cs1) := by
        rw [hT, hrest, hlen0]
        simp only [handleLong, if_pos hfire, if_neg (show ¬ avail < 1 by omega),
          Nat.cast_zero, sub_zero, List.nil_append]
      have hB2 : (wrapBuild avail (c1 :: cs1)).2 = c1.drop avail.toNat :: cs1 := by
        simp only [wrapBuild, hHL]
      refine ⟨b, ?_⟩
      rw [hB2]
      refine ⟨?_, ?_, hcs1⟩
      · intro h
        have := List.drop_eq_nil_iff.mp h
        omega
      · intro x hx
        exact hc1cls x (List.mem_of_mem_drop hx)
    | cons a taken2 =>
      cases hR : (takeFit avail 0 (c1 :: cs1)).2.2 with
      | nil =>
        have hHL : handleLong avail (takeFit avail 0 (c1 :: cs1)).2.1
            (takeFit avail 0 (c1 :: cs1)).1 (takeFit avail 0 (c1 :: cs1)).2.2
            = (a :: taken2, []) := by
          rw [hT, hR]
          rfl
        refine ⟨false, ?_⟩
        have hB2 : (wrapBuild avail (c1 :: cs1)).2 = [] := by
          simp only [wrapBuild, hHL]
        rw [hB2]
        trivial
      | cons c2 cs2 =>
        obtain ⟨b2, hro2⟩ := htro
        rw [hR] at hro2
        obtain ⟨hc2ne, hc2cls, hcs2⟩ := hro2
        by_cases hfire : avail < (c2.length : Int)
        · have hHL : handleLong avail (takeFit avail 0 (c1 :: cs1)).2.1
              (takeFit avail 0 (c1 :: cs1)).1 (takeFit avail 0 (c1 :: cs1)).2.2
              = ((a :: taken2)
                  ++ [c2.take (avail - ((takeFit avail 0 (c1 :: cs1)).2.1 : Int)).toNat],
                 c2.drop (avail - ((takeFit avail 0 (c1 :: cs1)).2.1 : Int)).toNat :: cs2) := by
            conv =>
              lhs
              rw [hT, hR]
            simp only [handleLong, if_pos hfire, if_neg (show ¬ avail < 1 by omega), hT]
          have hB2 : (wrapBuild avail (c1 :: cs1)).2
              = c2.drop (avail - ((takeFit avail 0 (c1 :: cs1)).2.1 : Int)).toNat :: cs2 := by
            simp only [wrapBuild, hHL]
          have htle2 := takeFit_le avail (c1 :: cs1) 0 (by omega)
          refine ⟨b2, ?_⟩
          rw [hB2]
          refine ⟨?_, ?_, hcs2⟩
          · intro h
            have := List.drop_eq_nil_iff.mp h
            omega
          · intro x hx
            exact hc2cls x (List.mem_of_mem_drop hx)
        · have hHL : handleLong avail (takeFit avail 0 (c1 :: cs1)).2.1
              (takeFit avail 0 (c1 :: cs1)).1 (takeFit avail 0 (c1 :: cs1)).2.2
              = (a :: taken2, c2 :: cs2) := by
            conv =>
              lhs
              rw [hT, hR]
            simp only [handleLong, if_neg hfire]
          refine ⟨b2, ?_⟩
          have hB2 : (wrapBuild avail (c1 :: cs1)).2 = c2 :: cs2 := by
            simp only [wrapBuild, hHL]
          rw [hB2]
          exact ⟨hc2ne, hc2cls, hcs2⟩

lemma wrapFill_width (W : Nat) (ind : List Char) (chunks1 : List (List Char))
    (hlen : ind.length < W) :
    ∀ l, (wrapFill W ind chunks1).1 = some l → l.length ≤ W := by
  intro l hl
  have h1 : (1 : Int) ≤ (W : Int) - (ind.length : Int) := by omega
  have hsum := wrapBuild_width ((W : Int) - (ind.length : Int)) chunks1 h1
  cases hcur : (wrapBuild ((W : Int) - (ind.length : Int)) chunks1).1.isEmpty with
  | true =>
    rw [show (wrapFill W ind chunks1).1 = Option.none from by
      simp only [wrapFill, wrapEmit]
      rw [if_pos hcur]] at hl
    cases hl
  | false =>
    rw [show (wrapFill W ind chunks1).1
        = some (ind ++ (wrapBuild ((W : Int) - (ind.length : Int)) chunks1).1.flatten) from by
      simp only [wrapFill, wrapEmit]
      rw [if_neg (by simp [hcur])]] at hl
    injection hl with hl2
    subst hl2
    rw [List.length_append, List.length_flatten]
    have havailtn : ((W : Int) - (ind.length : Int)).toNat = W - ind.length := by omega
    rw [havailtn] at hsum
    omega

lemma wrapIter_width (W : Nat) (ind : List Char) (dropLead : Bool)
    (chunks : List (List Char)) (hlen : ind.length < W) :
    ∀ l, (wrapIter W ind dropLead chunks).1 = some l → l.length ≤ W := by
  cases chunks with
  | nil =>
    have heq : wrapIter W ind dropLead [] = wrapFill W ind [] := rfl
    rw [heq]
    exact wrapFill_width W ind [] hlen
  | cons c cs =>
    by_cases hd : (dropLead && isWS c) = true
    · have heq : wrapIter W ind dropLead (c :: cs) = wrapFill W ind cs := by
        simp [wrapIter, hd]
      rw [heq]
      exact wrapFill_width W ind cs hlen
    · have heq : wrapIter W ind dropLead (c :: cs) = wrapFill W ind (c :: cs) := by
        simp [wrapIter, hd]
      rw [heq]
      exact wrapFill_width W ind (c :: cs) hlen

lemma wrapIter_runsOK (W : Nat) (ind : List Char) (dropLead : Bool)
    (chunks : List (List Char)) (b : Bool) (hro : RunsOK b chunks)
    (hlen : ind.length < W) :
    ∃ b2, RunsOK b2 (wrapIter W ind dropLead chunks).2 := by
  have h1 : (1 : Int) ≤ (W : Int) - (ind.length : Int) := by omega
  cases chunks with
  | nil =>
    refine ⟨false, ?_⟩
    have heq : (wrapIter W ind dropLead ([] : List (List Char))).2 = [] := rfl
    rw [heq]
    trivial
  | cons c cs =>
    by_cases hd : (dropLead && isWS c) = true
    · have heq : wrapIter W ind dropLead (c :: cs) = wrapFill W ind cs := by
        simp [wrapIter, hd]
      rw [heq]
      have hsnd : (wrapFill W ind cs).2
          = (wrapBuild ((W : Int) - (ind.length : Int)) cs).2 := rfl
      rw [hsnd]
      exact wrapBuild_runsOK ((W : Int) - (ind.length : Int)) cs (!b) h1 hro.2.2
    · have heq : wrapIter W ind dropLead (c :: cs) = wrapFill W ind (c :: cs) := by
        simp [wrapIter, hd]
      rw [heq]
      have hsnd : (wrapFill W ind (c :: cs)).2
          = (wrapBuild ((W : Int) - (ind.length : Int)) (c :: cs)).2 := rfl
      rw [hsnd]
      exact wrapBuild_runsOK ((W : Int) - (ind.length : Int)) (c :: cs) b h1 hro

lemma wrapLines_width (W : Nat) (ii si : List Char)
    (hlenii : ii.length < W) (hlensi : si.length < W) :
    ∀ (fuel : Nat) (first : Bool) (chunks : List (List Char)),
      ∀ l ∈ wrapChunksAux W ii si fuel first chunks, l.length ≤ W
  | 0, first, chunks => by
    intro l hl
    cases first <;> simp [wrapChunksAux] at hl
  | fuel + 1, first, [] => by
    intro l hl
    cases first <;> simp [wrapChunksAux] at hl
  | fuel + 1, true, c :: cs => by
    intro l hl
    rw [wrapChunksAux] at hl
    cases hr : (wrapIter W ii false (c :: cs)).1 with
    | some l0 =>
      simp only [hr] at hl
      rcases List.mem_cons.mp hl with rfl | hl2
      · exact wrapIter_width W ii false (c :: cs) hlenii l hr
      · exact wrapLines_width W ii si hlenii hlensi fuel false _ l hl2
    | none =>
      simp only [hr] at hl
      exact wrapLines_width W ii si hlenii hlensi fuel true _ l hl
  | fuel + 1, false, c :: cs => by
    intro l hl
    rw [wrapChunksAux] at hl
    cases hr : (wrapIter W si true (c :: cs)).1 with
    | some l0 =>
      simp only [hr] at hl
      rcases List.mem_cons.mp hl with rfl | hl2
      · exact wrapIter_width W si true (c :: cs) hlensi l hr
      · exact wrapLines_width W ii si hlenii hlensi fuel false _ l hl2
    | none =>
      simp only [hr] at hl
      exact wrapLines_width W ii si hlenii hlensi fuel false _ l hl

lemma wrapLines_tail_first (W : Nat) (ii si : List Char)
    (hsi : ∀ x ∈ si, x = ' ') (hlenii : ii.length < W) (hlensi : si.length < W) :
    ∀ (fuel : Nat) (chunks : List (List Char)) (b : Bool), RunsOK b chunks →
      ∀ l ∈ (wrapChunksAux W ii si fuel true chunks).tail,
        (l.takeWhile (fun x => x == ' ')).length = si.length
  | 0, chunks, b, hro => by
    intro l hl
    simp [wrapChunksAux] at hl
  | fuel + 1, [], b, hro => by
    intro l hl
    simp [wrapChunksAux] at hl
  | fuel + 1, c :: cs, b, hro => by
    intro l hl
    obtain ⟨b2, hro2⟩ := wrapIter_runsOK W ii false (c :: cs) b hro hlenii
    rw [wrapChunksAux] at hl
    cases hr : (wrapIter W ii false (c :: cs)).1 with
    | some l0 =>
      simp only [hr] at hl
      rw [List.tail_cons] at hl
      exact (wrapLines_cont W ii si hsi hlensi fuel _ b2 hro2 l hl).2
    | none =>
      simp only [hr] at hl
      exact wrapLines_tail_first W ii si hsi hlenii hlensi fuel _ b2 hro2 l hl

/-- C6, amended.  Under the wrap call of `relwrap` with the stored width
`W` and indent level `depth`, provided the continuation indent still fits
(`4 * depth + 2 < W`): every physical line is at most `W` characters wide
and every continuation line begins with exactly `4 * depth + 2` blanks;
if moreover the text does not begin with whitespace, the first physical
line begins with exactly `4 * depth` blanks.  (Both provisos are needed,
see the counterexample: an indent at or beyond the width makes the lines
overflow `W`, and a leading blank of the text survives into the first
line.) -/
theorem spec_C6_wrap_indent (W : Nat) (text : String) (depth : Nat)
    (hW : 4 * depth + 2 < W) :
    (∀ l ∈ relwrapLines W text depth, l.length ≤ W)
    ∧ (headNotWS text →
        ∀ l, (relwrapLines W text depth).head? = some l → countLeadingSpaces l = 4 * depth)
    ∧ (∀ l ∈ (relwrapLines W text depth).tail, countLeadingSpaces l = 4 * depth + 2) := by
  have hiitl : (indentOf depth).toList = List.replicate (4 * depth) ' ' := rfl
  have hsitl : (indentOf depth ++ "  ").toList
      = List.replicate (4 * depth) ' ' ++ [' ', ' '] := by
    show ((indentOf depth ++ "  ") : String).data = _
    rw [String.data_append]
    rfl
  have hiiAll : ∀ x ∈ (indentOf depth).toList, x = ' ' := by
    intro x hx
    rw [hiitl] at hx
    exact List.eq_of_mem_replicate hx
  have hsiAll : ∀ x ∈ (indentOf depth ++ "  ").toList, x = ' ' := by
    intro x hx
    rw [hsitl] at hx
    rcases List.mem_append.mp hx with h2 | h2
    · exact List.eq_of_mem_replicate h2
    · rcases List.mem_cons.mp h2 with rfl | h3
      · rfl
      · rcases List.mem_cons.mp h3 with rfl | h4
        · rfl
        · cases h4
  have hlii : (indentOf depth).toList.length = 4 * depth := by
    rw [hiitl, List.length_replicate]
  have hlsi : (indentOf depth ++ "  ").toList.length = 4 * depth + 2 := by
    rw [hsitl]
    simp
  cases hmu : munge text.toList with
  | nil =>
    have hempty : relwrapLines W text depth = [] := by
      simp only [relwrapLines, pyWrap, hmu]
      rfl
    rw [hempty]
    refine ⟨?_, ?_, ?_⟩
    · intro l hl
      cases hl
    · intro _ l hl
      cases hl
    · intro l hl
      cases hl
  | cons m0 ms =>
    have hro : RunsOK (m0 == ' ') (splitRuns (m0 :: ms)) := runsOK_splitRuns_cons m0 ms
    have hrw : relwrapLines W text depth
        = (wrapChunksAux W (indentOf depth).toList (indentOf depth ++ "  ").toList
            (chunkMeasure (splitRuns (m0 :: ms)) + 1) true (splitRuns (m0 :: ms))).map
          (fun l => String.mk l) := by
      simp only [relwrapLines, pyWrap, hmu]
    rw [hrw]
    refine ⟨?_, ?_, ?_⟩
    · intro l hl
      rcases List.mem_map.mp hl with ⟨l0, hl0, rfl⟩
      exact wrapLines_width W (indentOf depth).toList (indentOf depth ++ "  ").toList
        (by omega) (by omega) _ true _ l0 hl0
    · intro hhead l hl
      cases htl : text.toList with
      | nil =>
        rw [htl] at hmu
        simp [munge, expandTabsAux] at hmu
      | cons c cs =>
        have hc : pyIsSpaceChar c = false := hhead c (by rw [htl]; rfl)
        have hmh := munge_head c cs hc
        rw [htl, hmh] at hmu
        have hm0c : m0 = c := by
          injection hmu with h1 h2
          exact h1.symm
        have hm0 : (m0 == ' ') = false := by
          rw [hm0c]
          cases h2 : (c == ' ')
          · rfl
          · have h3 : c = ' ' := eq_of_beq h2
            subst h3
            simp [pyIsSpaceChar] at hc
        rw [hm0] at hro
        obtain ⟨hfirst, _⟩ := wrapLines_first W
          (indentOf depth).toList (indentOf depth ++ "  ").toList hiiAll hsiAll
          (by omega) (by omega)
          (chunkMeasure (splitRuns (m0 :: ms)) + 1) (splitRuns (m0 :: ms)) hro
        rw [List.head?_map] at hl
        cases hh : (wrapChunksAux W (indentOf depth).toList (indentOf depth ++ "  ").toList
            (chunkMeasure (splitRuns (m0 :: ms)) + 1) true (splitRuns (m0 :: ms))).head? with
        | none =>
          rw [hh] at hl
          cases hl
        | some l0 =>
          rw [hh] at hl
          injection hl with hl2
          subst hl2
          have h5 := (hfirst l0 hh).2
          rw [countLeadingSpaces, ← hlii]
          exact h5
    · intro l hl
      rw [← List.map_tail] at hl
      rcases List.mem_map.mp hl with ⟨l0, hl0, rfl⟩
      have h5 := wrapLines_tail_first W (indentOf depth).toList
        (indentOf depth ++ "  ").toList hsiAll (by omega) (by omega)
        (chunkMeasure (splitRuns (m0 :: ms)) + 1) (splitRuns (m0 :: ms)) (m0 == ' ') hro
        l0 hl0
      rw [countLeadingSpaces, ← hlsi]
      exact h5

/-- Witness for C6 (amended) at a concrete wrap: width 20, depth 1. -/
theorem spec_C6_witness :
    relwrapLines 20 "hello world this is a line" 1
      = ["    hello world this", "      is a line"]
    ∧ countLeadingSpaces "    hello world this" = 4 * 1
    ∧ countLeadingSpaces "      is a line" = 4 * 1 + 2
    ∧ "    hello world this".length ≤ 20 := by
  have hh : headNotWS "hello world this is a line" := by
    intro c0 hc0
    have h2 : c0 = 'h' := by
      rw [show ("hello world this is a line" : String).toList.head? = some 'h' from rfl] at hc0
      injection hc0 with h3
      exact h3.symm
    rw [h2]
    rfl
  have h := spec_C6_wrap_indent 20 "hello world this is a line" 1 (by decide)
  refine ⟨by decide, ?_, ?_, ?_⟩
  · exact h.2.1 hh "    hello world this" (by decide)
  · exact h.2.2 "      is a line" (by decide)
  · exact h.1 "    hello world this" (by decide)
